import Mathlib

/-!
Formal model of the retrieval pipeline of the financial document analyzer
(`shared/hybridSearch.js`, `shared/aiProcessor.js`, `shared/tableExtractor.js`,
`shared/config.js`).

Strings are modelled as `List Char` (`Str`); the JavaScript regular-expression
character class `\s` is modelled by its ASCII members, `\w` by
ASCII letters, digits and underscore (which is exactly what the JS `\w`
matches).  IEEE-754 double arithmetic is modelled by exact arithmetic:
rational numbers for Reciprocal Rank Fusion and real numbers for the BM25
scores (which involve `Math.log`).  `Array.prototype.sort`, which is
guaranteed stable by the ECMAScript specification, is modelled by
`List.insertionSort`, whose `orderedInsert` places an element after all
earlier elements it does not strictly precede, which is exactly the stable
behaviour.
-/

/-- Strings, modelled as lists of characters. -/
abbrev Str := List Char

/-- Model of the JS regex class `\s` (ASCII part). -/
def wsChar (c : Char) : Bool :=
  c = ' ' || c = '\t' || c = '\n' || c = '\r' || c = '\x0b' || c = '\x0c'

/-- Model of `String.prototype.trim`: drop whitespace from both ends. -/
def trimStr (l : Str) : Str :=
  ((l.dropWhile wsChar).reverse.dropWhile wsChar).reverse

/-- Model of `text.split(c)` for a single-character separator: split at every
occurrence, keeping empty pieces (as the JS string split does). -/
def splitChar (sep : Char) (l : Str) : List Str :=
  l.foldr
    (fun c acc =>
      if c = sep then [] :: acc
      else
        match acc with
        | [] => [[c]]
        | t :: ts => (c :: t) :: ts)
    [[]]

/-- Model of splitting on a regex such as `/\s+/` or `/\s{2,}/`: split at every
maximal run of `p`-characters of length at least `minRun`; shorter runs stay
inside the pieces.  Like the JS split, a leading or trailing separator run
produces an empty piece.  The extra `fuel` argument (always at least the
length of the remaining input, each step consumes at least one character)
only makes the recursion structural. -/
def splitRuns (p : Char → Bool) (minRun : ℕ) : ℕ → Str → Str → List Str
  | 0, acc, _ => [acc.reverse]
  | _ + 1, acc, [] => [acc.reverse]
  | fuel + 1, acc, c :: rest =>
    if p c then
      let run := c :: rest.takeWhile p
      if minRun ≤ run.length then
        acc.reverse :: splitRuns p minRun fuel [] (rest.drop (run.length - 1))
      else
        splitRuns p minRun fuel (run.reverse ++ acc) (rest.drop (run.length - 1))
    else
      splitRuns p minRun fuel (c :: acc) rest

/-- Entry point for `splitRuns`. -/
def splitRunsOn (p : Char → Bool) (minRun : ℕ) (l : Str) : List Str :=
  splitRuns p minRun (l.length + 1) [] l

/-- The STOP_WORDS set of `hybridSearch.js`. -/
def STOP_WORDS : List Str :=
  (["the", "a", "an", "and", "or", "but", "in", "on", "at", "to", "for",
    "of", "with", "by", "from", "is", "was", "are", "were", "be", "been",
    "being", "have", "has", "had", "do", "does", "did", "will", "would",
    "could", "should", "may", "might", "shall", "can", "this", "that",
    "these", "those", "it", "its", "as", "if", "not", "no", "so", "up",
    "out", "about", "into", "over", "after", "than", "also", "such",
    "each", "which", "their", "there", "then", "them", "they", "we",
    "our", "he", "she", "his", "her", "who", "all", "any", "some"]).map String.data

/-- Characters kept verbatim by the `replace(/[^\w\s$%]/g, ' ')` step:
`\w` (ASCII letters, digits, underscore), `\s`, dollar and percent. -/
def keepChar (c : Char) : Bool :=
  c.isAlpha || c.isDigit || c = '_' || wsChar c || c = '$' || c = '%'

/-- Model of `tokenize` from `hybridSearch.js`: lowercase, replace every
character outside `[\w\s$%]` by a space, split on whitespace runs, and keep
the tokens that are longer than one character and are not stop words. -/
def tokenize (l : Str) : List Str :=
  (splitRunsOn wsChar 1
      ((l.map Char.toLower).map (fun c => if keepChar c then c else ' '))).filter
    (fun t => decide (1 < t.length) && !(STOP_WORDS.contains t))

/-! ## Documents and Reciprocal Rank Fusion (`hybridSearch.js`) -/

/-- A langchain document as far as the fusion, dedup and rerank code reads it:
`metadata.id` (possibly absent) and `pageContent`. -/
structure RDoc where
  id : Option Str
  content : Str
deriving DecidableEq

/-- Model of `doc.metadata?.id || doc.pageContent.slice(0, 120)`: the empty
string is falsy in JS, so an empty id also falls back to the content
prefix. -/
def docIdOf (d : RDoc) : Str :=
  match d.id with
  | some s => if s = [] then d.content.take 120 else s
  | none => d.content.take 120

/-- One step of filling the `fusedScores` map: add the contribution to an
existing entry (keeping the first-encountered document object), or append a
new entry.  The association list keeps the insertion order of `Map`. -/
def rrfInsert (acc : List (Str × RDoc × ℚ)) (key : Str) (doc : RDoc)
    (contrib : ℚ) : List (Str × RDoc × ℚ) :=
  if acc.any (fun e => e.1 = key) then
    acc.map (fun e => if e.1 = key then (e.1, e.2.1, e.2.2 + contrib) else e)
  else acc ++ [(key, doc, contrib)]

/-- The fully filled `fusedScores` map of `reciprocalRankFusion`: for every
result list and every 0-based rank, the document at that rank contributes
`1 / (k + rank + 1)` to the entry of its id. -/
def rrfFused (resultSets : List (List RDoc)) (k : ℚ) : List (Str × RDoc × ℚ) :=
  resultSets.foldl
    (fun (acc : List (Str × RDoc × ℚ)) (results : List RDoc) =>
      results.enum.foldl
        (fun acc' pr => rrfInsert acc' (docIdOf pr.2) pr.2 (1 / (k + pr.1 + 1)))
        acc)
    []

/-- The `fusedScores` values sorted by descending RRF score.  The JS
`sort((a, b) => b.rrfScore - a.rrfScore)` is stable; `insertionSort` puts
each element before the later-listed elements of equal score, so with the
non-strict descending order it reproduces the stable sort: ties keep map
insertion order. -/
def rrfScored (resultSets : List (List RDoc)) (k : ℚ) : List (RDoc × ℚ) :=
  List.insertionSort (fun a b : RDoc × ℚ => b.2 ≤ a.2)
    ((rrfFused resultSets k).map (fun e => (e.2.1, e.2.2)))

/-- Model of `reciprocalRankFusion(resultSets, k)`. -/
def reciprocalRankFusion (resultSets : List (List RDoc)) (k : ℚ) : List RDoc :=
  (rrfScored resultSets k).map Prod.fst

/-! ## Orchestrator fallback merge and LLM reranking (`aiProcessor.js`) -/

/-- Model of the merge in `generateReportSections` lines 952-958: seed the
`seen` set with the ids of the filtered documents, then append each
unfiltered document whose `metadata?.id` has not been seen. -/
def mergeFallback (filtered unfiltered : List RDoc) : List RDoc :=
  (unfiltered.foldl
    (fun (st : List RDoc × List (Option Str)) d =>
      if st.2.contains d.id then st else (st.1 ++ [d], d.id :: st.2))
    (filtered, filtered.map (fun d => d.id))).1

/-- Model of the retrieval step of `generateReportSections` for one section:
the filtered result is kept as is unless a metadata filter was set and it
holds fewer than 3 documents, in which case the unfiltered retry is merged
in behind the filtered documents. -/
def effectiveRetrieval (hasFilter : Bool) (filtered unfiltered : List RDoc) :
    List RDoc :=
  if filtered.length < 3 ∧ hasFilter = true then mergeFallback filtered unfiltered
  else filtered

/-- Model of the ranking application inside `rerankChunks`: keep the in-range
indices of the parsed LLM reply (JS `idx >= 0 && idx < chunks.length`), map
them to the corresponding chunks (repeats kept), append every chunk missing
from that list, and truncate to `k`.  `chunks.includes` compares object
identity; documents are assumed pairwise distinct, as produced by the
chunker, so structural equality models it. -/
def rerankApply (chunks : List RDoc) (ranking : List Int) (k : ℕ) : List RDoc :=
  let reranked :=
    (ranking.filter (fun idx => decide (0 ≤ idx) && decide (idx < (chunks.length : ℤ)))).filterMap
      (fun idx => chunks.get? idx.toNat)
  (chunks.foldl (fun acc c => if acc.contains c then acc else acc ++ [c]) reranked).take k

/-- Model of `rerankChunks(chunks, query, apiKey, topK)`.  `ranking = none`
models every failure path (disabled call, API error, non-array reply); the
`topK` argument and the configured `reranking.topK` follow the JS falsiness
of `topK || …` (0 and undefined both fall through). -/
def rerankChunks (enabled : Bool) (cfgTopK : ℕ) (chunks : List RDoc)
    (topK : Option ℕ) (ranking : Option (List Int)) : List RDoc :=
  if !enabled || decide (chunks.length ≤ 2) then
    chunks.take (match topK with
      | some n => if n = 0 then chunks.length else n
      | none => chunks.length)
  else
    let k := match topK with
      | some n => if n = 0 then cfgTopK else n
      | none => cfgTopK
    match ranking with
    | some r => rerankApply chunks r k
    | none => chunks.take k

/-! ## BM25 index and search (`hybridSearch.js`)

The corpus is a list of page contents; `_buildIndex` computes per-document
token lists, term frequencies, document frequencies and the average document
length, which the functional model recomputes on demand. -/

/-- Term frequency of `t` in a tokenized document (`docData[i].freqs`). -/
def termFreq (dTokens : List Str) (t : Str) : ℕ := dTokens.count t

/-- Tokenized document `i` of the corpus (`docData[i].tokens`). -/
def docTokens (docs : List Str) (i : ℕ) : List Str := tokenize (docs.getD i [])

/-- Document frequency of `t` (`docFreqs`): the number of documents whose
token list contains `t`. -/
def docFreq (docs : List Str) (t : Str) : ℕ :=
  (docs.map tokenize).countP (fun d => d.contains t)

/-- Total token count of the corpus. -/
def totalLen (docs : List Str) : ℕ := ((docs.map tokenize).map List.length).sum

/-- Average document length `avgDL` (1 for an empty corpus, as in the
constructor). -/
noncomputable def avgDL (docs : List Str) : ℝ :=
  if 0 < docs.length then (totalLen docs : ℝ) / docs.length else 1

/-- Smoothed inverse document frequency
`Math.log((N - df + 0.5) / (df + 0.5) + 1)`. -/
noncomputable def idf (docs : List Str) (t : Str) : ℝ :=
  Real.log (((docs.length : ℝ) - docFreq docs t + 0.5) / (docFreq docs t + 0.5) + 1)

/-- BM25 term-frequency normalization
`(tf * (k1 + 1)) / (tf + k1 * (1 - b + b * (len / avgDL)))`. -/
noncomputable def tfNorm (docs : List Str) (k1 b : ℝ) (tf dl : ℕ) : ℝ :=
  (tf * (k1 + 1)) / (tf + k1 * (1 - b + b * (dl / avgDL docs)))

/-- The score accumulation loop of `search` over the query tokens: terms with
zero term frequency or zero document frequency are skipped. -/
noncomputable def bm25ScoreDoc (docs : List Str) (k1 b : ℝ) (q : Str)
    (dTokens : List Str) : ℝ :=
  (tokenize q).foldl
    (fun acc t =>
      if termFreq dTokens t = 0 then acc
      else if docFreq docs t = 0 then acc
      else acc + idf docs t * tfNorm docs k1 b (termFreq dTokens t) dTokens.length)
    0

/-- BM25 score of corpus document `i` against query `q`. -/
noncomputable def bm25Score (docs : List Str) (k1 b : ℝ) (q : Str) (i : ℕ) : ℝ :=
  bm25ScoreDoc docs k1 b q (docTokens docs i)

/-- The score stated by the specification: the sum over the query tokens of
`idf * tf_norm`, a term absent from the corpus or from the chunk
contributing zero. -/
noncomputable def bm25SpecScore (docs : List Str) (k1 b : ℝ) (q : Str) (i : ℕ) : ℝ :=
  ((tokenize q).map
    (fun t =>
      if termFreq (docTokens docs i) t = 0 ∨ docFreq docs t = 0 then 0
      else idf docs t * tfNorm docs k1 b (termFreq (docTokens docs i) t)
        (docTokens docs i).length)).sum

/-- Ranking order of the scored entries `(index, score)`: strictly larger
score first, ties by ascending original index.  On the index-ascending list
that `search` builds, sorting by this total order is exactly the stable
`sort((a, b) => b.score - a.score)`. -/
def rankRel (a b : ℕ × ℝ) : Prop := b.2 < a.2 ∨ (a.2 = b.2 ∧ a.1 ≤ b.1)

noncomputable instance : DecidableRel rankRel := fun _ _ => Classical.propDecidable _

instance : IsTotal (ℕ × ℝ) rankRel :=
  ⟨fun a b => by
    rcases lt_trichotomy a.2 b.2 with h | h | h
    · exact Or.inr (Or.inl h)
    · rcases Nat.le_total a.1 b.1 with h1 | h1
      · exact Or.inl (Or.inr ⟨h, h1⟩)
      · exact Or.inr (Or.inr ⟨h.symm, h1⟩)
    · exact Or.inl (Or.inl h)⟩

instance : IsTrans (ℕ × ℝ) rankRel :=
  ⟨fun a b c hab hbc => by
    rcases hab with h1 | ⟨e1, i1⟩
    · rcases hbc with h2 | ⟨e2, _⟩
      · exact Or.inl (h2.trans h1)
      · exact Or.inl (e2 ▸ h1)
    · rcases hbc with h2 | ⟨e2, i2⟩
      · exact Or.inl (e1 ▸ h2)
      · exact Or.inr ⟨e1.trans e2, i1.trans i2⟩⟩

open Classical in
/-- Model of `BM25Index.search(query, topK)` keeping the original indices:
score every document, keep the strictly positive scores, sort stably by
descending score and truncate to `topK`. -/
noncomputable def bm25SearchRanked (docs : List Str) (k1 b : ℝ) (q : Str)
    (topK : ℕ) : List (ℕ × ℝ) :=
  (List.insertionSort rankRel
    (((List.range docs.length).map (fun i => (i, bm25Score docs k1 b q i))).filter
      (fun e => decide (0 < e.2)))).take topK

/-- Model of the returned `{ document, score }` pairs of `search`. -/
noncomputable def bm25Search (docs : List Str) (k1 b : ℝ) (q : Str)
    (topK : ℕ) : List (Str × ℝ) :=
  (bm25SearchRanked docs k1 b q topK).map (fun e => (docs.getD e.1 [], e.2))

/-! ## Table detection and parsing (`tableExtractor.js`) -/

/-- Characters of the separator-line class `[\s\-=_+|]`. -/
def sepChar (c : Char) : Bool :=
  wsChar c || c = '-' || c = '=' || c = '_' || c = '+' || c = '|'

/-- Digits and commas, the body of `\$[\d,]+` and `\([\d,]+\)`. -/
def digitComma (c : Char) : Bool := c.isDigit || c = ','

/-- Number of non-overlapping matches of `/\$[\d,]+(\.\d+)?/g`:
a dollar sign followed by at least one digit or comma and an optional
fractional part.  The fuel only makes the recursion structural. -/
def countMoney : ℕ → Str → ℕ
  | 0, _ => 0
  | _ + 1, [] => 0
  | fuel + 1, c :: rest =>
    if c = '$' then
      let ds := rest.takeWhile digitComma
      if ds = [] then countMoney fuel rest
      else
        let rest1 := rest.drop ds.length
        let fracLen :=
          match rest1 with
          | '.' :: r2 =>
            let fd := r2.takeWhile Char.isDigit
            if fd = [] then 0 else fd.length + 1
          | _ => 0
        1 + countMoney fuel (rest1.drop fracLen)
    else countMoney fuel rest

/-- Number of non-overlapping matches of `/\([\d,]+(\.\d+)?\)/g`: a
parenthesized number (accounting negative).  On a failed match the scan
resumes after the opening parenthesis, as the regex engine does. -/
def countAcctNeg : ℕ → Str → ℕ
  | 0, _ => 0
  | _ + 1, [] => 0
  | fuel + 1, c :: rest =>
    if c = '(' then
      let ds := rest.takeWhile digitComma
      if ds = [] then countAcctNeg fuel rest
      else
        let rest1 := rest.drop ds.length
        let fracLen :=
          match rest1 with
          | '.' :: r2 =>
            let fd := r2.takeWhile Char.isDigit
            if fd = [] then 0 else fd.length + 1
          | _ => 0
        match rest1.drop fracLen with
        | ')' :: r3 => 1 + countAcctNeg fuel r3
        | _ => countAcctNeg fuel rest
    else countAcctNeg fuel rest

/-- The non-empty pieces obtained by splitting on runs of 2 or more
whitespace characters (`trimmed.split(/\s{2,}/).filter(Boolean)`). -/
def gapsOf (trimmed : Str) : List Str :=
  (splitRunsOn wsChar 2 trimmed).filter (fun s => !s.isEmpty)

/-- Model of `isTableLine`: the five heuristics of `tableExtractor.js` in
source order.  `/\|.*\|/` holds exactly when the line has two pipes. -/
def isTableLine (line : Str) : Bool :=
  let trimmed := trimStr line
  if trimmed = [] then false
  else if 2 ≤ trimmed.count '|' then true
  else if 4 ≤ trimmed.length && trimmed.all sepChar then true
  else if 3 ≤ (gapsOf trimmed).length then true
  else if 2 ≤ trimmed.count '\t' then true
  else if 2 ≤ countMoney (trimmed.length + 1) trimmed then true
  else if 2 ≤ countAcctNeg (trimmed.length + 1) trimmed
      && 2 ≤ (gapsOf trimmed).length then true
  else false

/-- A detected table region, as built by `buildRegion`. -/
structure TRegion where
  lineStart : ℕ
  lineEnd : ℕ
  startChar : ℕ
  endChar : ℕ
  text : Str
deriving DecidableEq

/-- Model of `buildRegion(lines, start, end, fullText)`. -/
def buildRegion (lines : List Str) (s e : ℕ) : TRegion :=
  let tableLines := (lines.drop s).take (e + 1 - s)
  let tableText := List.intercalate ['\n'] tableLines
  let charOffset := ((lines.take s).map (fun l => l.length + 1)).sum
  { lineStart := s, lineEnd := e, startChar := charOffset,
    endChar := charOffset + tableText.length, text := tableText }

/-- Model of `detectTables(text, minRows)`: a fold reproducing the scan with
its `runStart` and `consecutiveNonTable` state (one non-table line inside a
run is absorbed), followed by the trailing-run flush. -/
def detectTables (text : Str) (minRows : ℕ) : List TRegion :=
  let lines := splitChar '\n' text
  let st :=
    lines.enum.foldl
      (fun (st : Option ℕ × ℕ × List TRegion) pr =>
        if isTableLine pr.2 then (some (st.1.getD pr.1), 0, st.2.2)
        else
          match st.1 with
          | none => st
          | some rs =>
            let cnt := st.2.1 + 1
            if 1 < cnt then
              let runEnd := pr.1 - cnt
              let acc :=
                if minRows ≤ runEnd + 1 - rs then st.2.2 ++ [buildRegion lines rs runEnd]
                else st.2.2
              (none, 0, acc)
            else (some rs, cnt, st.2.2))
      (none, 0, [])
  match st.1 with
  | none => st.2.2
  | some rs =>
    let runEnd := lines.length - 1 - st.2.1
    if minRows ≤ runEnd + 1 - rs then st.2.2 ++ [buildRegion lines rs runEnd]
    else st.2.2

/-- Table-parsing result: headers and rows. -/
structure PTable where
  headers : List Str
  rows : List (List Str)
deriving DecidableEq

/-- The pipe-path separator test `/^[\s\-=_+|]+$/`. -/
def pipeSepLine (l : Str) : Bool := !l.isEmpty && l.all sepChar

/-- The space-path separator test `/^[\s\-=_+]+$/` (no pipe in the class). -/
def spaceSepLine (l : Str) : Bool :=
  !l.isEmpty && l.all (fun c => wsChar c || c = '-' || c = '=' || c = '_' || c = '+')

/-- The cell parse of a pipe-table line: split at pipes, trim, drop empties. -/
def pipeRow (line : Str) : List Str :=
  ((splitChar '|' line).map trimStr).filter (fun c => decide (0 < c.length))

/-- The trimmed non-empty lines `parseTable` works on. -/
def tableLinesOf (t : Str) : List Str :=
  ((splitChar '\n' t).map trimStr).filter (fun l => !l.isEmpty)

/-- Whether `parseTable` takes the pipe-delimited path: some line matches
`/\|.*\|/`, that is, has two pipes. -/
def tableIsPipe (t : Str) : Bool :=
  (tableLinesOf t).any (fun l => 2 ≤ l.count '|')

/-- Model of `parsePipeTable`: null only when no data line remains. -/
def parsePipeTable (lines : List Str) : Option PTable :=
  let dataLines := lines.filter (fun l => !pipeSepLine l)
  if dataLines.length < 1 then none
  else some { headers := pipeRow (dataLines.headD []), rows := dataLines.tail.map pipeRow }

/-- Model of `parseSpaceTable`: null when fewer than two data lines remain. -/
def parseSpaceTable (lines : List Str) : Option PTable :=
  let dataLines := lines.filter (fun l => !spaceSepLine l)
  if dataLines.length < 2 then none
  else some { headers := gapsOf (dataLines.headD []), rows := dataLines.tail.map gapsOf }

/-- Model of `parseTable(tableText)`. -/
def parseTable (tableText : Str) : Option PTable :=
  let lines := tableLinesOf tableText
  if lines.length < 2 then none
  else if tableIsPipe tableText then parsePipeTable lines
  else parseSpaceTable lines

/-! ## Semantic chunking (`aiProcessor.js`) -/

/-- Model of `text.split(/\n\s*\n/)`: a match starts at a newline whose
following whitespace run holds another newline; the greedy `\s*` ends just
before the last newline of the run, so trailing spaces of the run stay with
the next paragraph.  Fuel makes the recursion structural. -/
def splitParas : ℕ → Str → Str → List Str
  | 0, acc, _ => [acc.reverse]
  | _ + 1, acc, [] => [acc.reverse]
  | fuel + 1, acc, c :: rest =>
    if c = '\n' then
      let run := rest.takeWhile wsChar
      if run.contains '\n' then
        let j := run.length - 1 - run.reverse.indexOf '\n'
        acc.reverse :: splitParas fuel [] (rest.drop (j + 1))
      else splitParas fuel (c :: acc) rest
    else splitParas fuel (c :: acc) rest

/-- Entry point for the paragraph split. -/
def splitParasOn (l : Str) : List Str := splitParas (l.length + 1) [] l

/-- Model of `haystack.includes(needle)` on strings. -/
def hasInfix (hay needle : Str) : Bool :=
  hay.tails.any (fun t => needle.isPrefixOf t)

/-- Model of `s.slice(-n)` for `0 < n`: the last `n` characters. -/
def takeLast (n : ℕ) (l : Str) : Str := l.drop (l.length - n)

/-- The paragraph glue `'\n\n'`. -/
def nl2 : Str := ['\n', '\n']

/-- Sentence-ending characters of `/[^.!?]+[.!?]+\s*/`. -/
def sentEnd (c : Char) : Bool := c = '.' || c = '!' || c = '?'

/-- Model of `text.match(/[^.!?]+[.!?]+\s*/g)`: every match is a maximal run
of non-terminators, at least one terminator, and the following whitespace.
Unmatched characters (leading terminators, and a trailing fragment with no
terminator) are skipped, exactly as `match` drops them. -/
def matchSentences : ℕ → Str → List Str
  | 0, _ => []
  | _ + 1, [] => []
  | fuel + 1, c :: rest =>
    if sentEnd c then matchSentences fuel rest
    else
      let p := (c :: rest).takeWhile (fun d => !sentEnd d)
      let rest1 := (c :: rest).drop p.length
      let q := rest1.takeWhile sentEnd
      if q = [] then []
      else
        let w := (rest1.drop q.length).takeWhile wsChar
        (p ++ q ++ w) :: matchSentences fuel ((rest1.drop q.length).drop w.length)

/-- Model of `splitLongText(text, maxSize, overlap)`. -/
def splitLongText (text : Str) (maxSize overlap : ℕ) : List Str :=
  let m := matchSentences (text.length + 1) text
  let sentences := if m = [] then [text] else m
  let st :=
    sentences.foldl
      (fun (st : List Str × Str) s =>
        if maxSize < st.2.length + s.length ∧ 0 < st.2.length then
          (st.1 ++ [trimStr st.2],
           if 0 < overlap then takeLast overlap st.2 ++ s else s)
        else (st.1, st.2 ++ s))
      ([], [])
  if trimStr st.2 = [] then st.1 else st.1 ++ [trimStr st.2]

/-- Model of `isWithinTable(paragraph, tables, …)`: the source ignores its
`regionOffset` and `regionText` arguments and only asks whether the first
100 characters of the paragraph occur in some detected table text. -/
def isWithinTable (paragraph : Str) (tables : List TRegion) : Bool :=
  tables.any (fun t => hasInfix t.text (paragraph.take 100))

/-- One iteration of the paragraph loop of `chunkRegion`, over an abstract
table test `isTab` (instantiated with `isWithinTable · tables`).  The state
is `(chunks, currentChunk)`. -/
def chunkStep (maxSize minSize overlap : ℕ) (isTab : Str → Bool)
    (st : List Str × Str) (para : Str) : List Str × Str :=
  let tp := trimStr para
  if isTab tp then
    let chunks := if minSize ≤ (trimStr st.2).length then st.1 ++ [trimStr st.2] else st.1
    (chunks ++ [tp], [])
  else
    let st1 :=
      if 0 < st.2.length ∧ maxSize < st.2.length + tp.length + 2 then
        (st.1 ++ [trimStr st.2],
         if 0 < overlap ∧ overlap < st.2.length then takeLast overlap st.2 ++ nl2 ++ tp
         else tp)
      else (st.1, if 0 < st.2.length then st.2 ++ nl2 ++ tp else tp)
    if 3 * maxSize < 2 * st1.2.length then
      let sub := splitLongText st1.2 maxSize overlap
      (st1.1 ++ sub.dropLast, sub.getLastD [])
    else st1

/-- The final flush of `chunkRegion`: push the remainder when it reaches
`minSize`, merge a non-empty tiny tail into the last chunk, or push it as
the only chunk. -/
def chunkFinish (minSize : ℕ) (st : List Str × Str) : List Str :=
  let t := trimStr st.2
  if minSize ≤ t.length then st.1 ++ [t]
  else if 0 < t.length ∧ st.1 ≠ [] then st.1.dropLast ++ [st.1.getLastD [] ++ nl2 ++ t]
  else if 0 < t.length then st.1 ++ [t]
  else st.1

/-- The paragraph loop of `chunkRegion` over an abstract table test. -/
def chunkCore (maxSize minSize overlap : ℕ) (isTab : Str → Bool)
    (paras : List Str) : List Str :=
  chunkFinish minSize (paras.foldl (chunkStep maxSize minSize overlap isTab) ([], []))

/-- Model of `chunkRegion(text, maxSize, minSize, overlap, tables, …)`:
split into paragraphs at blank lines, drop whitespace-only paragraphs, run
the merge loop.  The source also receives `regionOffset`, which the logic
never uses. -/
def chunkRegion (text : Str) (maxSize minSize overlap : ℕ)
    (tables : List TRegion) : List Str :=
  chunkCore maxSize minSize overlap (fun p => isWithinTable p tables)
    ((splitParasOn text).filter (fun p => decide (0 < (trimStr p).length)))

/-- Raw chunk texts of `splitTextIntoSemanticChunks` for a document in which
`detectSections` finds no section header: the whole text is one region with
offset 0, chunked against the tables detected on the full text (metadata
assembly and table enrichment do not change the raw chunk texts the
coverage claims are about). -/
def semanticChunksNoSections (text : Str) (maxSize minSize overlap : ℕ) : List Str :=
  chunkRegion text maxSize minSize overlap (detectTables text 3)


/-! ## Specification-side definitions and concrete inputs used by the claims -/

/-- Specified RRF score of an id: the sum, over every result list and every
0-based rank at which a document with this id occurs, of `1/(k + rank + 1)`. -/
def rrfSpecScore (resultSets : List (List RDoc)) (k : ℚ) (key : Str) : ℚ :=
  (resultSets.map
    (fun results =>
      ((results.enum.filter (fun pr => decide (docIdOf pr.2 = key))).map
        (fun pr => (1 : ℚ) / (k + pr.1 + 1))).sum)).sum

/-- Total score recorded for a key in the association list (0 if absent;
with nodup keys, the score of the unique entry). -/
def keyScoreSum (acc : List (Str × RDoc × ℚ)) (key : Str) : ℚ :=
  ((acc.filter (fun e => decide (e.1 = key))).map (fun e => e.2.2)).sum

/-- The data lines remaining after the path-specific separator stripping. -/
def tableDataLines (t : Str) : List Str :=
  if tableIsPipe t then (tableLinesOf t).filter (fun l => !pipeSepLine l)
  else (tableLinesOf t).filter (fun l => !spaceSepLine l)

/-- The path-specific row parser. -/
def tableRowParse (t : Str) (line : Str) : List Str :=
  if tableIsPipe t then pipeRow line else gapsOf line

/-- Corpus of the BM25 ranking counterexample: document 1 is document 0 plus
one extra occurrence of the query term `rr`, and seven further documents
whose only token is dropped as a single character, so that every query term
has document frequency 2 and the average document length is 1. -/
def bmCexDocs : List Str :=
  ["rr aa bb cc".data, "rr rr aa bb cc".data, "x".data, "x".data, "x".data,
   "x".data, "x".data, "x".data, "x".data]

/-- Query of the BM25 ranking counterexample. -/
def bmCexQuery : Str := "rr aa bb cc".data

/-- A document appearing (at the last rank) in every list of the RRF rank
counterexample. -/
def eDoc : RDoc := ⟨some "e".data, "E".data⟩

/-- A document appearing at rank 0 of only the first list of the RRF rank
counterexample. -/
def sDoc : RDoc := ⟨some "s".data, "S".data⟩

/-- Filler documents of the first RRF counterexample list. -/
def fDoc (n : ℕ) : RDoc := ⟨some ('f' :: Nat.toDigits 10 n), ['f']⟩

/-- Filler documents of the second RRF counterexample list. -/
def gDoc (n : ℕ) : RDoc := ⟨some ('g' :: Nat.toDigits 10 n), ['g']⟩

/-- First RRF counterexample list: `sDoc` at rank 0, `eDoc` at rank 62. -/
def rrfCexL1 : List RDoc := sDoc :: (List.range 61).map fDoc ++ [eDoc]

/-- Second RRF counterexample list: `eDoc` at rank 62. -/
def rrfCexL2 : List RDoc := (List.range 62).map gDoc ++ [eDoc]

/-- The four documents of the RRF fusion scenario. -/
def scA : RDoc := ⟨some "a".data, "A content".data⟩

/-- Scenario document B. -/
def scB : RDoc := ⟨some "b".data, "B content".data⟩

/-- Scenario document C. -/
def scC : RDoc := ⟨some "c".data, "C content".data⟩

/-- Scenario document D. -/
def scD : RDoc := ⟨some "d".data, "D content".data⟩

/-- The two id-less documents of the prefix-collision claim: 120 identical
characters followed by a differing one. -/
def pcDocX : RDoc := ⟨none, List.replicate 120 'a' ++ ['x']⟩

/-- Second prefix-collision document. -/
def pcDocY : RDoc := ⟨none, List.replicate 120 'a' ++ ['y']⟩

/-- Candidate chunks of the rerank duplicate-index claim. -/
def rrA : RDoc := ⟨some "a".data, "chunk A".data⟩

/-- Second rerank candidate. -/
def rrB : RDoc := ⟨some "b".data, "chunk B".data⟩

/-- Third rerank candidate. -/
def rrC : RDoc := ⟨some "c".data, "chunk C".data⟩

/-- Input of the chunk-coverage counterexample: a 9-character paragraph
(shorter than the configured `minSize` of 100) followed by a three-line
pipe table. -/
def covCexText : Str := "tiny para\n\n| a | 1 |\n| b | 2 |\n| c | 3 |".data

/-- Input of the table-atomicity counterexample: a detected 7-line table
region (the blank line inside the run is absorbed) spanning a paragraph
break. -/
def atomCexText : Str :=
  "| a | 1 |\n| b | 2 |\n| c | 3 |\n\n| d | 4 |\n| e | 5 |\n| f | 6 |".data

/-- The 50-line input of the table-atomicity scenario: sixteen narrative
lines in four paragraphs, a blank line, a 5-line pipe table (lines 20-24),
and six more four-line narrative paragraphs. -/
def scenText : Str :=
  ("alpha beta gamma delta\nalpha beta gamma delta\nalpha beta gamma delta\nalpha beta gamma delta\n\n" ++
   "alpha beta gamma delta\nalpha beta gamma delta\nalpha beta gamma delta\nalpha beta gamma delta\n\n" ++
   "alpha beta gamma delta\nalpha beta gamma delta\nalpha beta gamma delta\nalpha beta gamma delta\n\n" ++
   "alpha beta gamma delta\nalpha beta gamma delta\nalpha beta gamma delta\nalpha beta gamma delta\n\n" ++
   "| a | 1 |\n| b | 2 |\n| c | 3 |\n| d | 4 |\n| e | 5 |\n\n" ++
   "alpha beta gamma delta\nalpha beta gamma delta\nalpha beta gamma delta\nalpha beta gamma delta\n\n" ++
   "alpha beta gamma delta\nalpha beta gamma delta\nalpha beta gamma delta\nalpha beta gamma delta\n\n" ++
   "alpha beta gamma delta\nalpha beta gamma delta\nalpha beta gamma delta\nalpha beta gamma delta\n\n" ++
   "alpha beta gamma delta\nalpha beta gamma delta\nalpha beta gamma delta\nalpha beta gamma delta\n\n" ++
   "alpha beta gamma delta\nalpha beta gamma delta\nalpha beta gamma delta\nalpha beta gamma delta").data

/-- The 5-line pipe table inside `scenText`. -/
def scenTable : Str := "| a | 1 |\n| b | 2 |\n| c | 3 |\n| d | 4 |\n| e | 5 |".data

/-! ## Theorems -/

/-- C5 (counterexample): tokenizing `"Revenue grew 22% to $30.4 billion."`
does keep `22%` and drop `to`, but it does not preserve `$30.4` as a token:
the decimal point is punctuation outside `[\w\s$%]`, so it is collapsed to a
space, contradicting the claimed preservation of `$30.4`. -/
theorem tokenize_scenario_cex :
    "22%".data ∈ tokenize "Revenue grew 22% to $30.4 billion.".data ∧
    "to".data ∉ tokenize "Revenue grew 22% to $30.4 billion.".data ∧
    "$30.4".data ∉ tokenize "Revenue grew 22% to $30.4 billion.".data := by
  refine ⟨by decide, by decide, by decide⟩

/-- C5 (amended): tokenizing `"Revenue grew 22% to $30.4 billion."` yields
exactly `revenue, grew, 22%, $30, billion`: `22%` is preserved, `to` is
dropped as a stop word, and `$30.4` is split at the punctuation `.` into
`$30` (kept) and `4` (dropped as a single-character token). -/
theorem tokenize_scenario_amended :
    tokenize "Revenue grew 22% to $30.4 billion.".data =
      ["revenue".data, "grew".data, "22%".data, "$30".data, "billion".data] := by
  decide

/-- C9: with reranking enabled, more than 2 candidates and the well-formed
LLM reply `[0, 0, 1]`, `rerankChunks` returns chunk A twice inside the topK
truncation (the default topK is 6): repeated in-range indices are mapped to
repeated chunks and are not deduplicated, while the omitted candidate C is
appended after the ranked ones. -/
theorem rerank_duplicate_indices :
    2 < [rrA, rrB, rrC].length ∧
    rerankChunks true 6 [rrA, rrB, rrC] (some 6) (some [0, 0, 1]) =
      [rrA, rrA, rrB, rrC] ∧
    2 ≤ (rerankChunks true 6 [rrA, rrB, rrC] (some 6) (some [0, 0, 1])).count rrA ∧
    rrC ∈ rerankChunks true 6 [rrA, rrB, rrC] (some 6) (some [0, 0, 1]) := by
  refine ⟨by decide, by decide, by decide, by decide⟩

/-- C10: two distinct id-less documents whose contents share the same
120-character prefix are fused into a single entry: the first-encountered
document object is kept, the two rank contributions `1/61` are summed on
it, and the fused output holds strictly fewer documents than the set of
distinct input documents. -/
theorem rrf_prefix_collision :
    pcDocX ≠ pcDocY ∧
    docIdOf pcDocX = docIdOf pcDocY ∧
    rrfScored [[pcDocX], [pcDocY]] 60 = [(pcDocX, 1 / 61 + 1 / 61)] ∧
    reciprocalRankFusion [[pcDocX], [pcDocY]] 60 = [pcDocX] ∧
    (reciprocalRankFusion [[pcDocX], [pcDocY]] 60).length < 2 := by
  refine ⟨by decide, by decide, by with_unfolding_all decide,
    by with_unfolding_all decide, by with_unfolding_all decide⟩

/-- C8 (counterexample): on `"| a | b |\n|---|---|"` only one data line
remains after stripping the separator line, yet `parseTable` does not
return null: the pipe path only requires one data line and returns the
headers with an empty row list, contradicting the claimed
fewer-than-two-data-lines null condition. -/
theorem parse_table_null_cex :
    tableIsPipe "| a | b |\n|---|---|".data = true ∧
    (tableDataLines "| a | b |\n|---|---|".data).length < 2 ∧
    parseTable "| a | b |\n|---|---|".data =
      some { headers := ["a".data, "b".data], rows := [] } := by
  refine ⟨by decide, by decide, by decide⟩

/-- C8 (amended): `parseTable` returns null exactly when fewer than two
trimmed non-empty lines exist, or the pipe path is taken and no data line
survives the separator stripping, or the space path is taken and fewer than
two data lines survive; any non-null result takes its headers from the
first surviving data line and its rows from the remaining ones, parsed with
the path-specific row splitter. -/
theorem parse_table_null_amended (t : Str) :
    (parseTable t = none ↔
      (tableLinesOf t).length < 2 ∨
      (tableIsPipe t = true ∧ (tableDataLines t).length < 1) ∨
      (tableIsPipe t = false ∧ (tableDataLines t).length < 2)) ∧
    ∀ pt, parseTable t = some pt →
      pt.headers = tableRowParse t ((tableDataLines t).headD []) ∧
      pt.rows = (tableDataLines t).tail.map (tableRowParse t) := by
  by_cases h2 : (tableLinesOf t).length < 2
  · have he : parseTable t = none := by
      simp only [parseTable]
      rw [if_pos h2]
    refine ⟨by simp [he, h2], fun pt hpt => absurd (he ▸ hpt) (by simp)⟩
  · by_cases hp : tableIsPipe t = true
    · have hd : tableDataLines t = (tableLinesOf t).filter (fun l => !pipeSepLine l) := by
        simp only [tableDataLines, hp, if_true]
      have hr : tableRowParse t = pipeRow := by
        funext line
        simp only [tableRowParse, hp, if_true]
      by_cases h1 : (tableDataLines t).length < 1
      · have he : parseTable t = none := by
          simp only [parseTable, parsePipeTable]
          rw [if_neg h2, if_pos hp, if_pos (hd ▸ h1)]
        refine ⟨by simp [he, hp, h1], fun pt hpt => absurd (he ▸ hpt) (by simp)⟩
      · have he : parseTable t =
            some { headers := pipeRow ((tableDataLines t).headD []),
                   rows := (tableDataLines t).tail.map pipeRow } := by
          simp only [parseTable, parsePipeTable]
          rw [if_neg h2, if_pos hp, if_neg (hd ▸ h1), ← hd]
        constructor
        · rw [he]
          simp [h2, h1, hp]
        · intro pt hpt
          rw [he] at hpt
          cases Option.some.inj hpt
          exact ⟨by rw [hr], by rw [hr]⟩
    · have hp' : tableIsPipe t = false := by
        simpa using hp
      have hd : tableDataLines t = (tableLinesOf t).filter (fun l => !spaceSepLine l) := by
        simp only [tableDataLines, hp', if_false, Bool.false_eq_true]
      have hr : tableRowParse t = gapsOf := by
        funext line
        simp only [tableRowParse, hp', if_false, Bool.false_eq_true]
      by_cases h1 : (tableDataLines t).length < 2
      · have he : parseTable t = none := by
          simp only [parseTable, parseSpaceTable]
          rw [if_neg h2, if_neg hp, if_pos (hd ▸ h1)]
        refine ⟨by simp [he, hp', h1, h2], fun pt hpt => absurd (he ▸ hpt) (by simp)⟩
      · have he : parseTable t =
            some { headers := gapsOf ((tableDataLines t).headD []),
                   rows := (tableDataLines t).tail.map gapsOf } := by
          simp only [parseTable, parseSpaceTable]
          rw [if_neg h2, if_neg hp, if_neg (hd ▸ h1), ← hd]
        constructor
        · rw [he]
          simp [h2, h1, hp']
        · intro pt hpt
          rw [he] at hpt
          cases Option.some.inj hpt
          exact ⟨by rw [hr], by rw [hr]⟩

/-- C8 (witness for the amended theorem): the amended characterization
evaluated on the counterexample input, whose non-null result is parsed from
its single data line. -/
theorem parse_table_null_amended_witness :
    ({ headers := ["a".data, "b".data], rows := [] : PTable }).headers =
      tableRowParse "| a | b |\n|---|---|".data
        ((tableDataLines "| a | b |\n|---|---|".data).headD []) ∧
    ({ headers := ["a".data, "b".data], rows := [] : PTable }).rows =
      (tableDataLines "| a | b |\n|---|---|".data).tail.map
        (tableRowParse "| a | b |\n|---|---|".data) :=
  (parse_table_null_amended "| a | b |\n|---|---|".data).2 _ (by decide)

/-- The fold step of `mergeFallback`. -/
private def mergeStep (st : List RDoc × List (Option Str)) (d : RDoc) :
    List RDoc × List (Option Str) :=
  if st.2.contains d.id then st else (st.1 ++ [d], d.id :: st.2)

theorem mergeFallback_eq_fold (filtered unfiltered : List RDoc) :
    mergeFallback filtered unfiltered =
      (unfiltered.foldl mergeStep (filtered, filtered.map (fun d => d.id))).1 := rfl

theorem mergeFold_append (ul : List RDoc) :
    ∀ st : List RDoc × List (Option Str), ∃ suf, (ul.foldl mergeStep st).1 = st.1 ++ suf := by
  induction ul with
  | nil => exact fun st => ⟨[], (st.1.append_nil).symm⟩
  | cons d ul ih =>
    intro st
    simp only [List.foldl_cons, mergeStep]
    by_cases h : st.2.contains d.id
    · rw [if_pos h]
      exact ih st
    · rw [if_neg h]
      obtain ⟨suf, hsuf⟩ := ih (st.1 ++ [d], d.id :: st.2)
      exact ⟨[d] ++ suf, by simpa [List.append_assoc] using hsuf⟩

theorem mergeFold_id_mem (ul : List RDoc) :
    ∀ st : List RDoc × List (Option Str),
      (∀ oid ∈ st.2, ∃ d' ∈ st.1, d'.id = oid) →
      ∀ d ∈ ul, ∃ d' ∈ (ul.foldl mergeStep st).1, d'.id = d.id := by
  induction ul with
  | nil => exact fun st _ d hd => absurd hd (List.not_mem_nil d)
  | cons d0 ul ih =>
    intro st hinv d hd
    simp only [List.foldl_cons, mergeStep]
    by_cases h : st.2.contains d0.id
    · rw [if_pos h]
      rcases List.mem_cons.mp hd with rfl | hd'
      · obtain ⟨d', hd'mem, hd'id⟩ := hinv d.id (by simpa using h)
        obtain ⟨suf, hsuf⟩ := mergeFold_append ul st
        exact ⟨d', by rw [hsuf]; exact List.mem_append_left _ hd'mem, hd'id⟩
      · exact ih st hinv d hd'
    · rw [if_neg h]
      have hinv' : ∀ oid ∈ (d0.id :: st.2), ∃ d' ∈ st.1 ++ [d0], d'.id = oid := by
        intro oid hoid
        rcases List.mem_cons.mp hoid with rfl | hoid'
        · exact ⟨d0, List.mem_append_right _ (List.mem_singleton_self d0), rfl⟩
        · obtain ⟨d', hd'mem, hd'id⟩ := hinv oid hoid'
          exact ⟨d', List.mem_append_left _ hd'mem, hd'id⟩
      rcases List.mem_cons.mp hd with rfl | hd'
      · obtain ⟨suf, hsuf⟩ := mergeFold_append ul (st.1 ++ [d], d.id :: st.2)
        refine ⟨d, ?_, rfl⟩
        rw [hsuf]
        exact List.mem_append_left _ (List.mem_append_right _ (List.mem_singleton_self d))
      · exact ih (st.1 ++ [d0], d0.id :: st.2) hinv' d hd'

theorem mergeFold_length (ul : List RDoc) :
    ∀ st : List RDoc × List (Option Str), (ul.map (fun d => d.id)).Nodup →
      st.1.length + ul.length ≤
        (ul.foldl mergeStep st).1.length + ul.countP (fun d => st.2.contains d.id) := by
  induction ul with
  | nil => intro st _; simp
  | cons d ul ih =>
    intro st hnodup
    have hnd : (ul.map (fun d => d.id)).Nodup := (List.nodup_cons.mp hnodup).2
    have hdni : d.id ∉ ul.map (fun d => d.id) := (List.nodup_cons.mp hnodup).1
    simp only [List.foldl_cons, mergeStep, List.length_cons]
    by_cases h : st.2.contains d.id
    · rw [if_pos h]
      have := ih st hnd
      have hc : (d :: ul).countP (fun x => st.2.contains x.id) =
          ul.countP (fun x => st.2.contains x.id) + 1 :=
        List.countP_cons_of_pos (fun x => st.2.contains x.id) ul h
      rw [hc]
      omega
    · rw [if_neg h]
      have := ih (st.1 ++ [d], d.id :: st.2) hnd
      have hcongr : ul.countP (fun x => (d.id :: st.2).contains x.id) =
          ul.countP (fun x => st.2.contains x.id) := by
        apply List.countP_congr
        intro x hx
        have hne : x.id ≠ d.id := by
          intro he
          exact hdni (he ▸ List.mem_map_of_mem (fun d => d.id) hx)
        simp [List.contains_cons, hne]
      have hc : (d :: ul).countP (fun x => st.2.contains x.id) =
          ul.countP (fun x => st.2.contains x.id) := by
        rw [List.countP_cons_of_neg]
        simpa using h
      rw [hc]
      rw [hcongr] at this
      simp only [List.length_append, List.length_singleton] at this
      omega

/-- C7: when the metadata-filtered retrieval returns fewer than 3 chunks
(and a filter was set) the orchestrator merges in the unfiltered retry:
the filtered chunks come first and are all retained, every unfiltered
chunk id is present, duplicates are dropped by chunk id, and — provided the
unfiltered results carry pairwise distinct ids, as the deduplicating
`multiQueryRetrieval` guarantees for chunker-assigned ids — the merged
count is at least the unfiltered count. -/
theorem fallback_union_spec (filtered unfiltered : List RDoc)
    (hlen : filtered.length < 3)
    (hnodup : (unfiltered.map (fun d => d.id)).Nodup) :
    effectiveRetrieval true filtered unfiltered = mergeFallback filtered unfiltered ∧
    (mergeFallback filtered unfiltered).take filtered.length = filtered ∧
    (∀ d ∈ filtered, d ∈ mergeFallback filtered unfiltered) ∧
    (∀ d ∈ unfiltered, ∃ d' ∈ mergeFallback filtered unfiltered, d'.id = d.id) ∧
    unfiltered.length ≤ (mergeFallback filtered unfiltered).length := by
  obtain ⟨suf, hsuf⟩ := mergeFold_append unfiltered (filtered, filtered.map (fun d => d.id))
  rw [mergeFallback_eq_fold]
  refine ⟨by simp [effectiveRetrieval, hlen, mergeFallback_eq_fold], ?_, ?_, ?_, ?_⟩
  · rw [hsuf, List.take_left]
  · intro d hd
    rw [hsuf]
    exact List.mem_append_left _ hd
  · intro d hd
    refine mergeFold_id_mem unfiltered _ ?_ d hd
    intro oid hoid
    obtain ⟨d', hd', he⟩ := List.mem_map.mp hoid
    exact ⟨d', hd', he⟩
  · have h1 := mergeFold_length unfiltered (filtered, filtered.map (fun d => d.id)) hnodup
    dsimp only at h1
    have h2 : unfiltered.countP
        (fun d => (filtered.map (fun d => d.id)).contains d.id) ≤ filtered.length := by
      rw [List.countP_eq_length_filter]
      have hsub : (unfiltered.filter
          (fun d => (filtered.map (fun d => d.id)).contains d.id)).map (fun d => d.id) ⊆
          filtered.map (fun d => d.id) := by
        intro x hx
        obtain ⟨d, hd, he⟩ := List.mem_map.mp hx
        have := List.of_mem_filter hd
        subst he
        simpa using this
      have hnd2 : ((unfiltered.filter
          (fun d => (filtered.map (fun d => d.id)).contains d.id)).map (fun d => d.id)).Nodup := by
        refine List.Nodup.sublist ?_ hnodup
        exact List.Sublist.map _ (List.filter_sublist _)
      have := (hnd2.subperm hsub).length_le
      simpa using this
    omega

/-- C7 (witness): the fallback merge on a one-chunk filtered result and a
two-chunk unfiltered retry sharing one id. -/
theorem fallback_union_spec_witness :
    effectiveRetrieval true [⟨some "a".data, "A".data⟩]
        [⟨some "a".data, "A2".data⟩, ⟨some "b".data, "B".data⟩] =
      mergeFallback [⟨some "a".data, "A".data⟩]
        [⟨some "a".data, "A2".data⟩, ⟨some "b".data, "B".data⟩] ∧
    (mergeFallback [⟨some "a".data, "A".data⟩]
        [⟨some "a".data, "A2".data⟩, ⟨some "b".data, "B".data⟩]).take 1 =
      [⟨some "a".data, "A".data⟩] ∧
    (∀ d ∈ [(⟨some "a".data, "A".data⟩ : RDoc)],
      d ∈ mergeFallback [⟨some "a".data, "A".data⟩]
        [⟨some "a".data, "A2".data⟩, ⟨some "b".data, "B".data⟩]) ∧
    (∀ d ∈ [(⟨some "a".data, "A2".data⟩ : RDoc), ⟨some "b".data, "B".data⟩],
      ∃ d' ∈ mergeFallback [⟨some "a".data, "A".data⟩]
        [⟨some "a".data, "A2".data⟩, ⟨some "b".data, "B".data⟩], d'.id = d.id) ∧
    2 ≤ (mergeFallback [⟨some "a".data, "A".data⟩]
        [⟨some "a".data, "A2".data⟩, ⟨some "b".data, "B".data⟩]).length :=
  fallback_union_spec [⟨some "a".data, "A".data⟩]
    [⟨some "a".data, "A2".data⟩, ⟨some "b".data, "B".data⟩] (by decide) (by decide)

theorem bm25ScoreDoc_eq_sum (docs : List Str) (k1 b : ℝ) (q : Str) (dT : List Str) :
    bm25ScoreDoc docs k1 b q dT =
      ((tokenize q).map
        (fun t =>
          if termFreq dT t = 0 ∨ docFreq docs t = 0 then 0
          else idf docs t * tfNorm docs k1 b (termFreq dT t) dT.length)).sum := by
  unfold bm25ScoreDoc
  suffices h : ∀ (ts : List Str) (a : ℝ),
      ts.foldl
        (fun acc t =>
          if termFreq dT t = 0 then acc
          else if docFreq docs t = 0 then acc
          else acc + idf docs t * tfNorm docs k1 b (termFreq dT t) dT.length) a =
      a + (ts.map
        (fun t =>
          if termFreq dT t = 0 ∨ docFreq docs t = 0 then 0
          else idf docs t * tfNorm docs k1 b (termFreq dT t) dT.length)).sum by
    simpa using h (tokenize q) 0
  intro ts
  induction ts with
  | nil => simp
  | cons t ts ih =>
    intro a
    simp only [List.foldl_cons, List.map_cons, List.sum_cons]
    by_cases h1 : termFreq dT t = 0
    · rw [if_pos h1, if_pos (Or.inl h1), ih]
      ring
    · by_cases h2 : docFreq docs t = 0
      · rw [if_neg h1, if_pos h2, if_pos (Or.inr h2), ih]
        ring
      · rw [if_neg h1, if_neg h2, if_neg (by tauto), ih]
        ring

theorem bm25Score_eq_spec (docs : List Str) (k1 b : ℝ) (q : Str) (i : ℕ) :
    bm25Score docs k1 b q i = bm25SpecScore docs k1 b q i :=
  bm25ScoreDoc_eq_sum docs k1 b q (docTokens docs i)

open Classical in
/-- C1: `search(query, topK)` keeps exactly the strictly positively scored
chunks, scores every kept chunk by the specified sum over the query tokens
of `idf * tf_norm` (terms absent from the corpus or the chunk contributing
zero), sorts by strictly descending score with ties in original index
order, and truncates to `topK`, so the result holds `min topK
(number of positive chunks)` entries — possibly fewer than `topK`,
including none. -/
theorem bm25_search_spec (docs : List Str) (k1 b : ℝ) (q : Str) (topK : ℕ) :
    (bm25SearchRanked docs k1 b q topK).length =
      min topK
        (((List.range docs.length).filter
          (fun i => decide (0 < bm25Score docs k1 b q i))).length) ∧
    List.Sorted rankRel (bm25SearchRanked docs k1 b q topK) ∧
    (∀ e ∈ bm25SearchRanked docs k1 b q topK,
      e.1 < docs.length ∧ 0 < e.2 ∧ e.2 = bm25SpecScore docs k1 b q e.1) ∧
    bm25Search docs k1 b q topK =
      (bm25SearchRanked docs k1 b q topK).map (fun e => (docs.getD e.1 [], e.2)) := by
  have hperm := List.perm_insertionSort rankRel
    (((List.range docs.length).map (fun i => (i, bm25Score docs k1 b q i))).filter
      (fun e => decide (0 < e.2)))
  refine ⟨?_, ?_, ?_, rfl⟩
  · show (List.take topK _).length = _
    rw [List.length_take, hperm.length_eq, List.filter_map, List.length_map]
    rfl
  · exact List.Pairwise.sublist (List.take_sublist _ _)
      (List.sorted_insertionSort rankRel _)
  · intro e he
    have h1 : e ∈ List.insertionSort rankRel _ := List.mem_of_mem_take he
    have h2 := hperm.subset h1
    obtain ⟨h3, h4⟩ := List.mem_filter.mp h2
    obtain ⟨i, hi, he2⟩ := List.mem_map.mp h3
    refine ⟨?_, of_decide_eq_true h4, ?_⟩
    · rw [← he2]
      exact List.mem_range.mp hi
    · rw [← he2]
      exact bm25Score_eq_spec docs k1 b q i

theorem avgDL_nonneg (docs : List Str) : 0 ≤ avgDL docs := by
  unfold avgDL
  split_ifs
  · positivity
  · norm_num

theorem docFreq_le_length (docs : List Str) (t : Str) : docFreq docs t ≤ docs.length := by
  unfold docFreq
  calc (docs.map tokenize).countP (fun d => d.contains t)
      ≤ (docs.map tokenize).length := List.countP_le_length _
    _ = docs.length := List.length_map _ _

theorem idf_pos (docs : List Str) (t : Str) : 0 < idf docs t := by
  unfold idf
  apply Real.log_pos
  have hdf : (docFreq docs t : ℝ) ≤ (docs.length : ℝ) := by
    exact_mod_cast docFreq_le_length docs t
  have hnum : (0:ℝ) < (docs.length : ℝ) - docFreq docs t + 0.5 := by linarith
  have hden : (0:ℝ) < (docFreq docs t : ℝ) + 0.5 := by positivity
  have := div_pos hnum hden
  linarith

theorem tfNorm_nonneg (docs : List Str) (k1 b : ℝ) (tf dl : ℕ)
    (hk1 : 0 ≤ k1) (hb0 : 0 ≤ b) (hb1 : b ≤ 1) : 0 ≤ tfNorm docs k1 b tf dl := by
  unfold tfNorm
  apply div_nonneg
  · positivity
  · have h1 : (0:ℝ) ≤ (dl:ℝ) / avgDL docs := div_nonneg (by positivity) (avgDL_nonneg docs)
    have hbx : (0:ℝ) ≤ b * ((dl:ℝ) / avgDL docs) := mul_nonneg hb0 h1
    have hin : (0:ℝ) ≤ 1 - b + b * ((dl:ℝ) / avgDL docs) := by linarith
    have hk := mul_nonneg hk1 hin
    have htf : (0:ℝ) ≤ (tf:ℝ) := Nat.cast_nonneg tf
    linarith

theorem tfNorm_mono (docs : List Str) (k1 b : ℝ) (dl : ℕ)
    (hk1 : 0 < k1) (hb0 : 0 ≤ b) (hb1 : b ≤ 1) {tf1 tf2 : ℕ} (h : tf1 ≤ tf2) :
    tfNorm docs k1 b tf1 dl ≤ tfNorm docs k1 b tf2 dl := by
  unfold tfNorm
  have hx : (0:ℝ) ≤ (dl:ℝ) / avgDL docs := div_nonneg (by positivity) (avgDL_nonneg docs)
  have hbx : (0:ℝ) ≤ b * ((dl:ℝ) / avgDL docs) := mul_nonneg hb0 hx
  have hin : (0:ℝ) ≤ 1 - b + b * ((dl:ℝ) / avgDL docs) := by linarith
  have hCnn : 0 ≤ k1 * (1 - b + b * ((dl:ℝ) / avgDL docs)) := mul_nonneg hk1.le hin
  rcases Nat.eq_zero_or_pos tf1 with h0 | hpos
  · rw [h0]
    simp only [Nat.cast_zero, zero_mul, zero_add, zero_div]
    apply div_nonneg
    · positivity
    · have : (0:ℝ) ≤ (tf2:ℝ) := by positivity
      linarith
  · have h1 : (0:ℝ) < tf1 := by exact_mod_cast hpos
    have hcast : (tf1:ℝ) ≤ tf2 := by exact_mod_cast h
    have h2 : (0:ℝ) < tf2 := by linarith
    rw [div_le_div_iff₀ (by linarith) (by linarith)]
    nlinarith [mul_nonneg (mul_nonneg (by linarith : (0:ℝ) ≤ k1 + 1) hCnn)
      (by linarith : (0:ℝ) ≤ (tf2:ℝ) - tf1)]

/-- C6 (amended): for a fixed corpus and query, a chunk whose term frequency
for every query token is at least that of another chunk of the same token
count has a BM25 score at least as large (term frequency contributes
monotonically at fixed document length; the counterexample shows that the
length increase caused by extra occurrences can reverse the ranking, which
is what the original unconditional claim misses). -/
theorem bm25_monotonicity_amended (docs : List Str) (k1 b : ℝ) (q : Str) (i j : ℕ)
    (hk1 : 0 < k1) (hb0 : 0 ≤ b) (hb1 : b ≤ 1)
    (hlen : (docTokens docs j).length = (docTokens docs i).length)
    (hmono : ∀ t ∈ tokenize q,
      termFreq (docTokens docs j) t ≤ termFreq (docTokens docs i) t) :
    bm25Score docs k1 b q j ≤ bm25Score docs k1 b q i := by
  rw [bm25Score_eq_spec, bm25Score_eq_spec]
  unfold bm25SpecScore
  apply List.sum_le_sum
  intro t ht
  have hmt := hmono t ht
  by_cases h1 : termFreq (docTokens docs j) t = 0
  · rw [if_pos (Or.inl h1)]
    split_ifs with h2
    · exact le_refl 0
    · exact mul_nonneg (idf_pos docs t).le (tfNorm_nonneg docs k1 b _ _ hk1.le hb0 hb1)
  · by_cases h2 : docFreq docs t = 0
    · rw [if_pos (Or.inr h2), if_pos (Or.inr h2)]
    · have h3 : ¬(termFreq (docTokens docs i) t = 0 ∨ docFreq docs t = 0) := by
        push_neg
        exact ⟨fun he => h1 (Nat.le_zero.mp (he ▸ hmt)), h2⟩
      rw [if_neg (by tauto), if_neg h3, hlen]
      exact mul_le_mul_of_nonneg_left
        (tfNorm_mono docs k1 b _ hk1 hb0 hb1 hmt) (idf_pos docs t).le

/-- C6 (witness for the amended theorem): two three-token chunks, the first
with two occurrences of the query term, the second with one. -/
theorem bm25_monotonicity_amended_witness :
    (0:ℝ) < 3/2 ∧ (0:ℝ) ≤ 3/4 ∧ (3/4:ℝ) ≤ 1 ∧
    bm25Score ["rr rr aa".data, "rr aa bb".data] (3/2) (3/4) "rr".data 1 ≤
      bm25Score ["rr rr aa".data, "rr aa bb".data] (3/2) (3/4) "rr".data 0 :=
  ⟨by norm_num, by norm_num, by norm_num,
    bm25_monotonicity_amended ["rr rr aa".data, "rr aa bb".data] (3/2) (3/4)
      "rr".data 0 1 (by norm_num) (by norm_num) (by norm_num) (by decide)
      (by decide)⟩

theorem bmCex_avgDL : avgDL bmCexDocs = 1 := by
  unfold avgDL
  rw [if_pos (by decide : 0 < bmCexDocs.length)]
  rw [show totalLen bmCexDocs = 9 from by decide,
    show bmCexDocs.length = 9 from by decide]
  norm_num

theorem bmCex_idf (t : Str) (ht : docFreq bmCexDocs t = 2) :
    idf bmCexDocs t = Real.log 4 := by
  unfold idf
  rw [ht, show bmCexDocs.length = 9 from by decide]
  norm_num

theorem bmCex_score0 :
    bm25Score bmCexDocs (3/2) (3/4) bmCexQuery 0 = Real.log 4 * (80/47) := by
  rw [bm25Score_eq_spec]
  unfold bm25SpecScore
  rw [show tokenize bmCexQuery = ["rr".data, "aa".data, "bb".data, "cc".data] from by decide]
  simp only [List.map_cons, List.map_nil, List.sum_cons, List.sum_nil]
  rw [show termFreq (docTokens bmCexDocs 0) "rr".data = 1 from by decide,
    show termFreq (docTokens bmCexDocs 0) "aa".data = 1 from by decide,
    show termFreq (docTokens bmCexDocs 0) "bb".data = 1 from by decide,
    show termFreq (docTokens bmCexDocs 0) "cc".data = 1 from by decide,
    show (docTokens bmCexDocs 0).length = 4 from by decide,
    bmCex_idf "rr".data (by decide), bmCex_idf "aa".data (by decide),
    bmCex_idf "bb".data (by decide), bmCex_idf "cc".data (by decide),
    show docFreq bmCexDocs "rr".data = 2 from by decide,
    show docFreq bmCexDocs "aa".data = 2 from by decide,
    show docFreq bmCexDocs "bb".data = 2 from by decide,
    show docFreq bmCexDocs "cc".data = 2 from by decide]
  have htn : tfNorm bmCexDocs (3/2) (3/4) 1 4 = 20/47 := by
    unfold tfNorm
    rw [bmCex_avgDL]
    norm_num
  rw [if_neg (by norm_num), htn]
  ring

theorem bmCex_score1 :
    bm25Score bmCexDocs (3/2) (3/4) bmCexQuery 1 = Real.log 4 * (95/56) := by
  rw [bm25Score_eq_spec]
  unfold bm25SpecScore
  rw [show tokenize bmCexQuery = ["rr".data, "aa".data, "bb".data, "cc".data] from by decide]
  simp only [List.map_cons, List.map_nil, List.sum_cons, List.sum_nil]
  rw [show termFreq (docTokens bmCexDocs 1) "rr".data = 2 from by decide,
    show termFreq (docTokens bmCexDocs 1) "aa".data = 1 from by decide,
    show termFreq (docTokens bmCexDocs 1) "bb".data = 1 from by decide,
    show termFreq (docTokens bmCexDocs 1) "cc".data = 1 from by decide,
    show (docTokens bmCexDocs 1).length = 5 from by decide,
    bmCex_idf "rr".data (by decide), bmCex_idf "aa".data (by decide),
    bmCex_idf "bb".data (by decide), bmCex_idf "cc".data (by decide),
    show docFreq bmCexDocs "rr".data = 2 from by decide,
    show docFreq bmCexDocs "aa".data = 2 from by decide,
    show docFreq bmCexDocs "bb".data = 2 from by decide,
    show docFreq bmCexDocs "cc".data = 2 from by decide]
  have htn2 : tfNorm bmCexDocs (3/2) (3/4) 2 5 = 5/8 := by
    unfold tfNorm
    rw [bmCex_avgDL]
    norm_num
  have htn1 : tfNorm bmCexDocs (3/2) (3/4) 1 5 = 5/14 := by
    unfold tfNorm
    rw [bmCex_avgDL]
    norm_num
  rw [if_neg (by norm_num), if_neg (by norm_num), htn2, htn1]
  ring

theorem bmCex_score_lt :
    bm25Score bmCexDocs (3/2) (3/4) bmCexQuery 1 <
      bm25Score bmCexDocs (3/2) (3/4) bmCexQuery 0 := by
  rw [bmCex_score0, bmCex_score1]
  have hlog : (0:ℝ) < Real.log 4 := Real.log_pos (by norm_num)
  nlinarith

theorem bmCex_score_zero (m : ℕ) (hm : docTokens bmCexDocs m = []) :
    bm25Score bmCexDocs (3/2) (3/4) bmCexQuery m = 0 := by
  rw [bm25Score_eq_spec]
  unfold bm25SpecScore
  rw [show tokenize bmCexQuery = ["rr".data, "aa".data, "bb".data, "cc".data] from by decide,
    hm]
  simp [termFreq]

theorem bmCex_search_order :
    (bm25SearchRanked bmCexDocs (3/2) (3/4) bmCexQuery 10).map Prod.fst = [0, 1] := by
  have hlog : (0:ℝ) < Real.log 4 := Real.log_pos (by norm_num)
  have h0 : 0 < bm25Score bmCexDocs (3/2) (3/4) bmCexQuery 0 := by
    rw [bmCex_score0]
    nlinarith
  have h1 : 0 < bm25Score bmCexDocs (3/2) (3/4) bmCexQuery 1 := by
    rw [bmCex_score1]
    nlinarith
  unfold bm25SearchRanked
  rw [show List.range bmCexDocs.length = [0, 1, 2, 3, 4, 5, 6, 7, 8] from by decide]
  simp only [List.map_cons, List.map_nil]
  rw [bmCex_score_zero 2 (by decide), bmCex_score_zero 3 (by decide),
    bmCex_score_zero 4 (by decide), bmCex_score_zero 5 (by decide),
    bmCex_score_zero 6 (by decide), bmCex_score_zero 7 (by decide),
    bmCex_score_zero 8 (by decide)]
  simp only [List.filter_cons, List.filter_nil, decide_eq_true_eq]
  rw [if_pos h0, if_pos h1]
  simp only [lt_self_iff_false, if_false]
  simp only [List.insertionSort, List.orderedInsert]
  have hrel : rankRel (0, bm25Score bmCexDocs (3/2) (3/4) bmCexQuery 0)
      (1, bm25Score bmCexDocs (3/2) (3/4) bmCexQuery 1) := Or.inl bmCex_score_lt
  rw [if_pos hrel]
  simp

/-- C6 (counterexample): in a fixed nine-document corpus, chunk 1 holds the
same tokens as chunk 0 plus one extra occurrence of the query term `rr`;
every query term is equally rare (document frequency 2, the minimum
possible for terms occurring in both chunks), yet chunk 1 scores strictly
lower and `search` ranks it strictly below chunk 0: the extra occurrence
lengthens the chunk, and the length-normalization penalty on the other
query terms outweighs the term-frequency gain. -/
theorem bm25_monotonicity_cex :
    docTokens bmCexDocs 1 = "rr".data :: docTokens bmCexDocs 0 ∧
    termFreq (docTokens bmCexDocs 0) "rr".data = 1 ∧
    termFreq (docTokens bmCexDocs 1) "rr".data = 2 ∧
    (tokenize bmCexQuery).all (fun t => decide (docFreq bmCexDocs t = 2)) = true ∧
    bm25Score bmCexDocs (3/2) (3/4) bmCexQuery 1 <
      bm25Score bmCexDocs (3/2) (3/4) bmCexQuery 0 ∧
    (bm25SearchRanked bmCexDocs (3/2) (3/4) bmCexQuery 10).map Prod.fst = [0, 1] :=
  ⟨by decide, by decide, by decide, by decide, bmCex_score_lt, bmCex_search_order⟩

instance : IsTotal (RDoc × ℚ) (fun a b => b.2 ≤ a.2) := ⟨fun a b => le_total b.2 a.2⟩

instance : IsTrans (RDoc × ℚ) (fun a b => b.2 ≤ a.2) := ⟨fun _ _ _ h1 h2 => le_trans h2 h1⟩

theorem keyScoreSum_nil (key : Str) : keyScoreSum [] key = 0 := rfl

theorem keyScoreSum_cons (x : Str × RDoc × ℚ) (l : List (Str × RDoc × ℚ)) (key : Str) :
    keyScoreSum (x :: l) key = (if x.1 = key then x.2.2 else 0) + keyScoreSum l key := by
  simp only [keyScoreSum, List.filter_cons, decide_eq_true_eq]
  split_ifs with h
  · simp
  · simp

theorem keyScoreSum_of_not_mem (l : List (Str × RDoc × ℚ)) (key : Str)
    (h : key ∉ l.map (fun e => e.1)) : keyScoreSum l key = 0 := by
  induction l with
  | nil => rfl
  | cons x l ih =>
    rw [keyScoreSum_cons]
    simp only [List.map_cons, List.mem_cons, not_or] at h
    rw [if_neg (fun he => h.1 he.symm), ih h.2]
    ring

theorem rrfInsert_cons_ne (e : Str × RDoc × ℚ) (acc : List (Str × RDoc × ℚ))
    (key : Str) (d : RDoc) (c : ℚ) (h : ¬e.1 = key) :
    rrfInsert (e :: acc) key d c = e :: rrfInsert acc key d c := by
  unfold rrfInsert
  have h1 : ((e :: acc).any fun x => decide (x.1 = key)) =
      (acc.any fun x => decide (x.1 = key)) := by
    simp [List.any_cons, h]
  rw [h1]
  by_cases hany : (acc.any fun x => decide (x.1 = key)) = true
  · rw [if_pos hany, if_pos hany, List.map_cons, if_neg h]
  · rw [if_neg hany, if_neg hany, List.cons_append]

theorem rrfInsert_cons_eq (e : Str × RDoc × ℚ) (acc : List (Str × RDoc × ℚ))
    (key : Str) (d : RDoc) (c : ℚ) (h : e.1 = key)
    (hnd : key ∉ acc.map (fun x => x.1)) :
    rrfInsert (e :: acc) key d c = (e.1, e.2.1, e.2.2 + c) :: acc := by
  unfold rrfInsert
  have hany : ((e :: acc).any fun x => decide (x.1 = key)) = true := by
    simp [List.any_cons, h]
  rw [if_pos hany, List.map_cons, if_pos h]
  congr 1
  have hid : ∀ x ∈ acc, (if x.1 = key then (x.1, x.2.1, x.2.2 + c) else x) = x := by
    intro x hx
    exact if_neg (fun (he : x.1 = key) =>
      hnd (he ▸ List.mem_map_of_mem (fun e => e.1) hx))
  rw [List.map_congr_left hid]
  exact List.map_id' acc

theorem rrfInsert_score (key : Str) (d : RDoc) (c : ℚ) :
    ∀ acc : List (Str × RDoc × ℚ), (acc.map (fun e => e.1)).Nodup →
      ∀ key', keyScoreSum (rrfInsert acc key d c) key' =
        keyScoreSum acc key' + (if key' = key then c else 0) := by
  intro acc
  induction acc with
  | nil =>
    intro _ key'
    have h0 : rrfInsert [] key d c = [(key, d, c)] := rfl
    rw [h0, keyScoreSum_cons, keyScoreSum_nil]
    by_cases h : key' = key
    · subst h
      simp
    · rw [if_neg (fun he : key = key' => h he.symm), if_neg h]
  | cons e acc ih =>
    intro hnd key'
    have hnd' : (e.1 :: acc.map (fun x => x.1)).Nodup := by
      have := hnd
      rwa [List.map_cons] at this
    have hnd2 : (acc.map (fun x => x.1)).Nodup := (List.nodup_cons.mp hnd').2
    have hhead : e.1 ∉ acc.map (fun x => x.1) := (List.nodup_cons.mp hnd').1
    by_cases he : e.1 = key
    · have hkm : key ∉ acc.map (fun x => x.1) := he ▸ hhead
      rw [rrfInsert_cons_eq e acc key d c he hkm, keyScoreSum_cons, keyScoreSum_cons]
      by_cases hk : key' = key
      · rw [if_pos (show (e.1, e.2.1, e.2.2 + c).1 = key' from by rw [he, hk]),
          if_pos (by rw [he, hk] : e.1 = key'), if_pos hk]
        show e.2.2 + c + _ = _
        ring
      · rw [if_neg (show ¬(e.1, e.2.1, e.2.2 + c).1 = key' from
          fun h2 => hk (by rw [← h2, he])),
          if_neg (fun h2 => hk (by rw [← h2, he]) : ¬e.1 = key'), if_neg hk]
        ring
    · rw [rrfInsert_cons_ne e acc key d c he, keyScoreSum_cons, keyScoreSum_cons,
        ih hnd2 key']
      ring

theorem rrfInsert_keys (acc : List (Str × RDoc × ℚ)) (key : Str) (d : RDoc) (c : ℚ) :
    (rrfInsert acc key d c).map (fun e => e.1) =
      if (acc.any fun e => decide (e.1 = key)) = true then acc.map (fun e => e.1)
      else acc.map (fun e => e.1) ++ [key] := by
  unfold rrfInsert
  split_ifs with h
  · simp only [List.map_map]
    apply List.map_congr_left
    intro x _
    by_cases hx : x.1 = key <;> simp [hx]
  · simp

theorem rrfInsert_keys_nodup (acc : List (Str × RDoc × ℚ)) (key : Str) (d : RDoc)
    (c : ℚ) (hnd : (acc.map (fun e => e.1)).Nodup) :
    ((rrfInsert acc key d c).map (fun e => e.1)).Nodup := by
  rw [rrfInsert_keys]
  split_ifs with h
  · exact hnd
  · rw [List.nodup_append]
    refine ⟨hnd, List.nodup_singleton key, ?_⟩
    intro x hx hx2
    rw [List.mem_singleton] at hx2
    subst hx2
    obtain ⟨e, he, hee⟩ := List.mem_map.mp hx
    simp only [List.any_eq_true, decide_eq_true_eq] at h
    push_neg at h
    exact h e he hee

theorem rrfInsert_keys_mem (acc : List (Str × RDoc × ℚ)) (key : Str) (d : RDoc)
    (c : ℚ) :
    key ∈ (rrfInsert acc key d c).map (fun e => e.1) ∧
    ∀ x ∈ acc.map (fun e => e.1), x ∈ (rrfInsert acc key d c).map (fun e => e.1) := by
  rw [rrfInsert_keys]
  split_ifs with h
  · constructor
    · rw [List.any_eq_true] at h
      obtain ⟨e, he, hee⟩ := h
      rw [decide_eq_true_eq] at hee
      exact hee ▸ List.mem_map_of_mem (fun e => e.1) he
    · exact fun x hx => hx
  · exact ⟨List.mem_append_right _ (List.mem_singleton_self key),
      fun x hx => List.mem_append_left _ hx⟩

theorem rrfInsert_docIds (acc : List (Str × RDoc × ℚ)) (key : Str) (d : RDoc)
    (c : ℚ) (hdoc : docIdOf d = key)
    (hinv : ∀ e ∈ acc, docIdOf e.2.1 = e.1) :
    ∀ e ∈ rrfInsert acc key d c, docIdOf e.2.1 = e.1 := by
  unfold rrfInsert
  split_ifs with h
  · intro e he
    obtain ⟨x, hx, hxe⟩ := List.mem_map.mp he
    subst hxe
    by_cases hxk : x.1 = key
    · rw [if_pos hxk]
      exact hinv x hx
    · rw [if_neg hxk]
      exact hinv x hx
  · intro e he
    rcases List.mem_append.mp he with h1 | h1
    · exact hinv e h1
    · rw [List.mem_singleton] at h1
      subst h1
      exact hdoc

theorem enum_mem_of_mem {α : Type} {l : List α} {d : α} (hd : d ∈ l) :
    ∃ i, i < l.length ∧ (i, d) ∈ l.enum := by
  obtain ⟨n, hn⟩ := List.get_of_mem hd
  refine ⟨(n : ℕ), n.2, ?_⟩
  rw [List.mk_mem_enum_iff_getElem?, List.getElem?_eq_getElem n.2,
    ← List.get_eq_getElem l n, hn]

theorem keyScoreSum_of_mem (l : List (Str × RDoc × ℚ))
    (hnd : (l.map (fun e => e.1)).Nodup) :
    ∀ e ∈ l, keyScoreSum l e.1 = e.2.2 := by
  induction l with
  | nil => exact fun e he => absurd he (List.not_mem_nil e)
  | cons x l ih =>
    have hnd' : (x.1 :: l.map (fun e => e.1)).Nodup := by
      have := hnd
      rwa [List.map_cons] at this
    have hhead : x.1 ∉ l.map (fun e => e.1) := (List.nodup_cons.mp hnd').1
    have hnd2 : (l.map (fun e => e.1)).Nodup := (List.nodup_cons.mp hnd').2
    intro e he
    rcases List.mem_cons.mp he with rfl | he'
    · rw [keyScoreSum_cons, if_pos rfl, keyScoreSum_of_not_mem l e.1 hhead]
      ring
    · rw [keyScoreSum_cons]
      have hne : ¬x.1 = e.1 :=
        fun h2 => hhead (h2 ▸ List.mem_map_of_mem (fun e => e.1) he')
      rw [if_neg hne, ih hnd2 e he']
      ring

theorem rrfListFold_nodup (k : ℚ) (pairs : List (ℕ × RDoc)) :
    ∀ acc, (acc.map (fun e => e.1)).Nodup →
      ((pairs.foldl
        (fun a pr => rrfInsert a (docIdOf pr.2) pr.2 (1 / (k + pr.1 + 1)))
        acc).map (fun e => e.1)).Nodup := by
  induction pairs with
  | nil => exact fun acc h => h
  | cons pr pairs ih =>
    intro acc hnd
    exact ih _ (rrfInsert_keys_nodup acc (docIdOf pr.2) pr.2 _ hnd)

theorem rrfListFold_score (k : ℚ) (pairs : List (ℕ × RDoc)) :
    ∀ acc, (acc.map (fun e => e.1)).Nodup →
      ∀ key', keyScoreSum
          (pairs.foldl
            (fun a pr => rrfInsert a (docIdOf pr.2) pr.2 (1 / (k + pr.1 + 1)))
            acc) key' =
        keyScoreSum acc key' +
          ((pairs.filter (fun pr => decide (docIdOf pr.2 = key'))).map
            (fun pr => (1 : ℚ) / (k + pr.1 + 1))).sum := by
  induction pairs with
  | nil =>
    intro acc _ key'
    simp
  | cons pr pairs ih =>
    intro acc hnd key'
    rw [List.foldl_cons,
      ih _ (rrfInsert_keys_nodup acc (docIdOf pr.2) pr.2 _ hnd) key',
      rrfInsert_score (docIdOf pr.2) pr.2 _ acc hnd key',
      List.filter_cons]
    by_cases h : docIdOf pr.2 = key'
    · rw [if_pos h.symm, if_pos (decide_eq_true h)]
      simp only [List.map_cons, List.sum_cons]
      ring
    · rw [if_neg (fun h2 => h h2.symm), if_neg (fun h2 => h (of_decide_eq_true h2))]
      ring

theorem rrfListFold_keys_mono (k : ℚ) (pairs : List (ℕ × RDoc)) :
    ∀ acc,
      (∀ x ∈ acc.map (fun e => e.1),
        x ∈ (pairs.foldl
          (fun a pr => rrfInsert a (docIdOf pr.2) pr.2 (1 / (k + pr.1 + 1)))
          acc).map (fun e => e.1)) ∧
      ∀ pr ∈ pairs, docIdOf pr.2 ∈
        (pairs.foldl
          (fun a pr => rrfInsert a (docIdOf pr.2) pr.2 (1 / (k + pr.1 + 1)))
          acc).map (fun e => e.1) := by
  induction pairs with
  | nil =>
    intro acc
    exact ⟨fun x hx => hx, fun pr hpr => absurd hpr (List.not_mem_nil pr)⟩
  | cons pr0 pairs ih =>
    intro acc
    obtain ⟨hmono, hmem⟩ := ih (rrfInsert acc (docIdOf pr0.2) pr0.2 (1 / (k + pr0.1 + 1)))
    obtain ⟨hkey, hsub⟩ := rrfInsert_keys_mem acc (docIdOf pr0.2) pr0.2 (1 / (k + pr0.1 + 1))
    constructor
    · intro x hx
      exact hmono x (hsub x hx)
    · intro pr hpr
      rcases List.mem_cons.mp hpr with rfl | hpr'
      · exact hmono _ hkey
      · exact hmem pr hpr'

theorem rrfListFold_docIds (k : ℚ) (pairs : List (ℕ × RDoc)) :
    ∀ acc, (∀ e ∈ acc, docIdOf e.2.1 = e.1) →
      ∀ e ∈ pairs.foldl
        (fun a pr => rrfInsert a (docIdOf pr.2) pr.2 (1 / (k + pr.1 + 1))) acc,
        docIdOf e.2.1 = e.1 := by
  induction pairs with
  | nil => exact fun acc h => h
  | cons pr pairs ih =>
    intro acc hinv
    exact ih _ (rrfInsert_docIds acc (docIdOf pr.2) pr.2 _ rfl hinv)

theorem rrfFused_eq_fold (rs : List (List RDoc)) (k : ℚ) :
    rrfFused rs k =
      rs.foldl
        (fun (acc : List (Str × RDoc × ℚ)) (results : List RDoc) =>
          results.enum.foldl
            (fun a pr => rrfInsert a (docIdOf pr.2) pr.2 (1 / (k + pr.1 + 1)))
            acc)
        [] := rfl

theorem rrfSetsFold_nodup (k : ℚ) (rs : List (List RDoc)) :
    ∀ acc, (acc.map (fun e => e.1)).Nodup →
      ((rs.foldl
        (fun (acc : List (Str × RDoc × ℚ)) (results : List RDoc) =>
          results.enum.foldl
            (fun a pr => rrfInsert a (docIdOf pr.2) pr.2 (1 / (k + pr.1 + 1)))
            acc)
        acc).map (fun e => e.1)).Nodup := by
  induction rs with
  | nil => exact fun acc h => h
  | cons l rs ih =>
    intro acc hnd
    exact ih _ (rrfListFold_nodup k l.enum acc hnd)

theorem rrfSetsFold_score (k : ℚ) (rs : List (List RDoc)) :
    ∀ acc, (acc.map (fun e => e.1)).Nodup →
      ∀ key', keyScoreSum
          (rs.foldl
            (fun (acc : List (Str × RDoc × ℚ)) (results : List RDoc) =>
              results.enum.foldl
                (fun a pr => rrfInsert a (docIdOf pr.2) pr.2 (1 / (k + pr.1 + 1)))
                acc)
            acc) key' =
        keyScoreSum acc key' + rrfSpecScore rs k key' := by
  induction rs with
  | nil =>
    intro acc _ key'
    simp [rrfSpecScore]
  | cons l rs ih =>
    intro acc hnd key'
    rw [List.foldl_cons, ih _ (rrfListFold_nodup k l.enum acc hnd) key',
      rrfListFold_score k l.enum acc hnd key']
    unfold rrfSpecScore
    simp only [List.map_cons, List.sum_cons]
    ring

theorem rrfFused_nodup (rs : List (List RDoc)) (k : ℚ) :
    ((rrfFused rs k).map (fun e => e.1)).Nodup := by
  rw [rrfFused_eq_fold]
  exact rrfSetsFold_nodup k rs [] (by simp)

theorem rrfFused_score (rs : List (List RDoc)) (k : ℚ) (key : Str) :
    keyScoreSum (rrfFused rs k) key = rrfSpecScore rs k key := by
  rw [rrfFused_eq_fold]
  rw [rrfSetsFold_score k rs [] (by simp) key, keyScoreSum_nil]
  ring

theorem rrfFused_docIds (rs : List (List RDoc)) (k : ℚ) :
    ∀ e ∈ rrfFused rs k, docIdOf e.2.1 = e.1 := by
  rw [rrfFused_eq_fold]
  have : ∀ (rs' : List (List RDoc)) (acc : List (Str × RDoc × ℚ)),
      (∀ e ∈ acc, docIdOf e.2.1 = e.1) →
      ∀ e ∈ rs'.foldl
        (fun (acc : List (Str × RDoc × ℚ)) (results : List RDoc) =>
          results.enum.foldl
            (fun a pr => rrfInsert a (docIdOf pr.2) pr.2 (1 / (k + pr.1 + 1)))
            acc)
        acc, docIdOf e.2.1 = e.1 := by
    intro rs'
    induction rs' with
    | nil => exact fun acc h => h
    | cons l rs' ih =>
      intro acc hinv
      exact ih _ (rrfListFold_docIds k l.enum acc hinv)
  exact this rs [] (fun e he => absurd he (List.not_mem_nil e))

theorem rrfFused_key_mem (rs : List (List RDoc)) (k : ℚ) :
    ∀ l ∈ rs, ∀ d ∈ l, docIdOf d ∈ (rrfFused rs k).map (fun e => e.1) := by
  rw [rrfFused_eq_fold]
  have main : ∀ (rs' : List (List RDoc)) (acc : List (Str × RDoc × ℚ)),
      (∀ l ∈ rs', ∀ d ∈ l, docIdOf d ∈
        (rs'.foldl
          (fun (acc : List (Str × RDoc × ℚ)) (results : List RDoc) =>
            results.enum.foldl
              (fun a pr => rrfInsert a (docIdOf pr.2) pr.2 (1 / (k + pr.1 + 1)))
              acc)
          acc).map (fun e => e.1)) ∧
      (∀ x ∈ acc.map (fun e => e.1), x ∈
        (rs'.foldl
          (fun (acc : List (Str × RDoc × ℚ)) (results : List RDoc) =>
            results.enum.foldl
              (fun a pr => rrfInsert a (docIdOf pr.2) pr.2 (1 / (k + pr.1 + 1)))
              acc)
          acc).map (fun e => e.1)) := by
    intro rs'
    induction rs' with
    | nil =>
      intro acc
      exact ⟨fun l hl => absurd hl (List.not_mem_nil l), fun x hx => hx⟩
    | cons l0 rs' ih =>
      intro acc
      obtain ⟨hall, hmono⟩ := ih
        (l0.enum.foldl
          (fun a pr => rrfInsert a (docIdOf pr.2) pr.2 (1 / (k + pr.1 + 1))) acc)
      obtain ⟨hkeep, henum⟩ := rrfListFold_keys_mono k l0.enum acc
      refine ⟨?_, fun x hx => hmono x (hkeep x hx)⟩
      intro l hl d hd
      rcases List.mem_cons.mp hl with rfl | hl'
      · obtain ⟨i, _, hpr⟩ := enum_mem_of_mem hd
        exact hmono _ (henum (i, d) hpr)
      · exact hall l hl' d hd
  exact (main rs []).1

theorem rrfScored_entry (rs : List (List RDoc)) (k : ℚ) :
    ∀ p ∈ rrfScored rs k, p.2 = rrfSpecScore rs k (docIdOf p.1) := by
  intro p hp
  have hp2 : p ∈ (rrfFused rs k).map (fun e => (e.2.1, e.2.2)) :=
    (List.perm_insertionSort _ _).subset hp
  obtain ⟨e, he, hpe⟩ := List.mem_map.mp hp2
  subst hpe
  have hid : docIdOf e.2.1 = e.1 := rrfFused_docIds rs k e he
  have hsc : keyScoreSum (rrfFused rs k) e.1 = e.2.2 :=
    keyScoreSum_of_mem (rrfFused rs k) (rrfFused_nodup rs k) e he
  show e.2.2 = rrfSpecScore rs k (docIdOf e.2.1)
  rw [hid, ← rrfFused_score, hsc]

theorem rrf_output_complete (rs : List (List RDoc)) (k : ℚ) :
    ∀ l ∈ rs, ∀ d ∈ l, ∃ d' ∈ reciprocalRankFusion rs k, docIdOf d' = docIdOf d := by
  intro l hl d hd
  have hkey := rrfFused_key_mem rs k l hl d hd
  obtain ⟨e, he, hee⟩ := List.mem_map.mp hkey
  refine ⟨e.2.1, ?_, by rw [rrfFused_docIds rs k e he, hee]⟩
  unfold reciprocalRankFusion rrfScored
  have : (e.2.1, e.2.2) ∈ (rrfFused rs k).map (fun e => (e.2.1, e.2.2)) :=
    List.mem_map_of_mem _ he
  exact List.mem_map_of_mem Prod.fst ((List.perm_insertionSort _ _).symm.subset this)

theorem pairwise_indexOf_lt {α : Type} [DecidableEq α] {r : α → α → Prop} :
    ∀ {l : List α}, l.Pairwise r → ∀ {a b : α}, a ∈ l → b ∈ l → a ≠ b → ¬r b a →
      l.indexOf a < l.indexOf b := by
  intro l
  induction l with
  | nil => intro _ a b ha; exact absurd ha (List.not_mem_nil a)
  | cons c t ih =>
    intro hp a b ha hb hab hnr
    obtain ⟨hc, ht⟩ := List.pairwise_cons.mp hp
    by_cases hac : a = c
    · subst hac
      rw [List.indexOf_cons_self]
      rw [List.indexOf_cons_ne t hab]
      exact Nat.succ_pos _
    · by_cases hbc : b = c
      · subst hbc
        have hat : a ∈ t := by
          rcases List.mem_cons.mp ha with h | h
          · exact absurd h hac
          · exact h
        exact absurd (hc a hat) hnr
      · have hat : a ∈ t := by
          rcases List.mem_cons.mp ha with h | h
          · exact absurd h hac
          · exact h
        have hbt : b ∈ t := by
          rcases List.mem_cons.mp hb with h | h
          · exact absurd h hbc
          · exact h
        rw [List.indexOf_cons_ne t (fun h2 : c = a => hac h2.symm),
          List.indexOf_cons_ne t (fun h2 : c = b => hbc h2.symm)]
        exact Nat.succ_lt_succ (ih ht hat hbt hab hnr)

theorem mul_length_le_sum_map {β : Type} (L : List β) (f : β → ℚ) (c : ℚ)
    (h : ∀ x ∈ L, c ≤ f x) : c * L.length ≤ (L.map f).sum := by
  induction L with
  | nil => simp
  | cons x L ih =>
    simp only [List.map_cons, List.sum_cons, List.length_cons]
    have h1 := h x (List.mem_cons_self x L)
    have h2 := ih (fun y hy => h y (List.mem_cons_of_mem x hy))
    push_cast
    nlinarith

theorem countP_enum_snd (l : List RDoc) (p : RDoc → Bool) :
    l.enum.countP (fun pr => p pr.2) = l.countP p := by
  have h1 : l.enum.countP (fun pr => p pr.2) =
      (l.enum.map Prod.snd).countP p := by
    rw [List.countP_map]
    rfl
  rw [h1, List.enum_map_snd]

theorem rrfSpecScore_lower (rs : List (List RDoc)) (k : ℚ) (key : Str)
    (hk : 0 ≤ k)
    (hlen : ∀ l ∈ rs, (l.length : ℚ) ≤ k + 1)
    (hE : ∀ l ∈ rs, ∃ d ∈ l, docIdOf d = key)
    (hm : 2 ≤ rs.length) :
    2 * (1 / (2 * k + 1)) ≤ rrfSpecScore rs k key := by
  unfold rrfSpecScore
  have hplist : ∀ l ∈ rs,
      1 / (2 * k + 1) ≤
        ((l.enum.filter (fun pr => decide (docIdOf pr.2 = key))).map
          (fun pr => (1 : ℚ) / (k + pr.1 + 1))).sum := by
    intro l hl
    obtain ⟨d, hd, hid⟩ := hE l hl
    obtain ⟨i, hi, hienum⟩ := enum_mem_of_mem hd
    have hmemf : ((i, d) : ℕ × RDoc) ∈
        l.enum.filter (fun pr => decide (docIdOf pr.2 = key)) :=
      List.mem_filter.mpr ⟨hienum, decide_eq_true hid⟩
    have hmemm : (1 : ℚ) / (k + i + 1) ∈
        ((l.enum.filter (fun pr => decide (docIdOf pr.2 = key))).map
          (fun pr => (1 : ℚ) / (k + pr.1 + 1))) :=
      List.mem_map_of_mem _ hmemf
    have hnn : ∀ x ∈ ((l.enum.filter (fun pr => decide (docIdOf pr.2 = key))).map
        (fun pr => (1 : ℚ) / (k + pr.1 + 1))), 0 ≤ x := by
      intro x hx
      obtain ⟨pr, _, hpx⟩ := List.mem_map.mp hx
      subst hpx
      have : (0:ℚ) < k + pr.1 + 1 := by positivity
      positivity
    have hle := List.single_le_sum hnn _ hmemm
    refine le_trans ?_ hle
    have hi1 : (i : ℚ) + 1 ≤ k + 1 := by
      have h1 : (i : ℚ) + 1 ≤ (l.length : ℚ) := by
        have : (i : ℕ) + 1 ≤ l.length := hi
        exact_mod_cast this
      exact le_trans h1 (hlen l hl)
    have hpos : (0:ℚ) < k + i + 1 := by positivity
    have hle2 : k + i + 1 ≤ 2 * k + 1 := by linarith
    exact one_div_le_one_div_of_le hpos hle2
  have hmain := mul_length_le_sum_map rs
    (fun l => ((l.enum.filter (fun pr => decide (docIdOf pr.2 = key))).map
      (fun pr => (1 : ℚ) / (k + pr.1 + 1))).sum) (1 / (2 * k + 1)) hplist
  have hcast : (2:ℚ) ≤ (rs.length : ℚ) := by exact_mod_cast hm
  have hc : (0:ℚ) ≤ 1 / (2 * k + 1) := by positivity
  nlinarith

theorem rrfSpecScore_upper (rs : List (List RDoc)) (k : ℚ) (key : Str)
    (hk : 0 ≤ k)
    (hcount : (rs.map (fun l => l.countP (fun d => decide (docIdOf d = key)))).sum = 1) :
    rrfSpecScore rs k key ≤ 1 / (k + 1) := by
  unfold rrfSpecScore
  have hplist : ∀ l ∈ rs,
      ((l.enum.filter (fun pr => decide (docIdOf pr.2 = key))).map
        (fun pr => (1 : ℚ) / (k + pr.1 + 1))).sum ≤
      (l.countP (fun d => decide (docIdOf d = key)) : ℚ) * (1 / (k + 1)) := by
    intro l _
    have hb : ∀ x ∈ ((l.enum.filter (fun pr => decide (docIdOf pr.2 = key))).map
        (fun pr => (1 : ℚ) / (k + pr.1 + 1))), x ≤ 1 / (k + 1) := by
      intro x hx
      obtain ⟨pr, _, hpx⟩ := List.mem_map.mp hx
      subst hpx
      have hpos : (0:ℚ) < k + 1 := by positivity
      have hle : k + 1 ≤ k + pr.1 + 1 := by
        have : (0:ℚ) ≤ (pr.1 : ℚ) := by positivity
        linarith
      exact one_div_le_one_div_of_le hpos hle
    have := List.sum_le_card_nsmul _ _ hb
    rw [nsmul_eq_mul] at this
    refine le_trans this ?_
    rw [List.length_map]
    have hflen : (l.enum.filter (fun pr => decide (docIdOf pr.2 = key))).length =
        l.countP (fun d => decide (docIdOf d = key)) := by
      rw [← List.countP_eq_length_filter]
      exact countP_enum_snd l (fun d => decide (docIdOf d = key))
    rw [hflen]
  have h1 : ((rs.map (fun l =>
      ((l.enum.filter (fun pr => decide (docIdOf pr.2 = key))).map
        (fun pr => (1 : ℚ) / (k + pr.1 + 1))).sum))).sum ≤
      (rs.map (fun l =>
        (l.countP (fun d => decide (docIdOf d = key)) : ℚ) * (1 / (k + 1)))).sum :=
    List.sum_le_sum hplist
  refine le_trans h1 ?_
  rw [List.sum_map_mul_right]
  have h2 : (rs.map (fun l => (l.countP (fun d => decide (docIdOf d = key)) : ℚ))).sum = 1 :=
    calc (rs.map (fun l => ((l.countP (fun d => decide (docIdOf d = key)) : ℕ) : ℚ))).sum
        = ((rs.map (fun l => l.countP (fun d => decide (docIdOf d = key)))).map
            (fun n : ℕ => (n : ℚ))).sum := by
          rw [List.map_map]
          rfl
      _ = (((rs.map (fun l => l.countP (fun d => decide (docIdOf d = key)))).sum : ℕ) : ℚ) :=
          (Nat.cast_list_sum _).symm
      _ = 1 := by
          rw [hcount]
          norm_num
  rw [h2]
  norm_num

set_option maxRecDepth 200000 in
/-- C2 (counterexample): with the RRF constant 60 actually used by the
pipeline and two ranked lists of 63 results each, the document `eDoc`
appearing in *every* input list (at the last rank of both, scoring
`2/123`) ranks strictly below the document `sDoc` appearing in only one
list (at rank 0, scoring `1/61`), refuting the claim that a chunk in every
input list ranks at least as high as one appearing in a single list. -/
theorem rrf_rank_universal_cex :
    eDoc ∈ rrfCexL1 ∧ eDoc ∈ rrfCexL2 ∧ sDoc ∈ rrfCexL1 ∧ sDoc ∉ rrfCexL2 ∧
    rrfCexL1.length = 63 ∧ rrfCexL2.length = 63 ∧
    List.indexOf sDoc (reciprocalRankFusion [rrfCexL1, rrfCexL2] 60) <
      List.indexOf eDoc (reciprocalRankFusion [rrfCexL1, rrfCexL2] 60) := by
  refine ⟨by decide, by decide, by decide, by decide, by decide, by decide, ?_⟩
  with_unfolding_all decide

/-- C2 (amended): the fused entries carry exactly the specified score — the
sum over every list and every rank at which the id occurs of
`1/(k + rank + 1)` — and the output covers the union of the input lists (no
chunk id is dropped).  The rank clause holds under the proviso the
counterexample shows necessary: when every input list has length at most
`k + 1`, a chunk appearing in every one of at least two duplicate-free
input lists ranks strictly higher than a chunk appearing at a single rank
of a single list.  The concrete scenario
`reciprocalRankFusion([[A,B,C],[B,A,D]], 60)` gives B a fused score equal
to (hence at least) that of A and keeps D. -/
theorem rrf_fusion_amended :
    (∀ (rs : List (List RDoc)) (k : ℚ), ∀ e ∈ rrfFused rs k,
      docIdOf e.2.1 = e.1 ∧ e.2.2 = rrfSpecScore rs k e.1) ∧
    (∀ (rs : List (List RDoc)) (k : ℚ), ∀ l ∈ rs, ∀ d ∈ l,
      ∃ d' ∈ reciprocalRankFusion rs k, docIdOf d' = docIdOf d) ∧
    (∀ (rs : List (List RDoc)) (k : ℚ) (E S : RDoc),
      0 ≤ k →
      2 ≤ rs.length →
      (∀ l ∈ rs, (l.length : ℚ) ≤ k + 1) →
      (∀ l ∈ rs, ∃ d ∈ l, docIdOf d = docIdOf E) →
      (rs.map (fun l => l.countP (fun d => decide (docIdOf d = docIdOf S)))).sum = 1 →
      docIdOf E ≠ docIdOf S →
      ∀ dE ∈ reciprocalRankFusion rs k, ∀ dS ∈ reciprocalRankFusion rs k,
        docIdOf dE = docIdOf E → docIdOf dS = docIdOf S →
        List.indexOf dE (reciprocalRankFusion rs k) <
          List.indexOf dS (reciprocalRankFusion rs k)) ∧
    (reciprocalRankFusion [[scA, scB, scC], [scB, scA, scD]] 60 =
        [scA, scB, scC, scD] ∧
      rrfSpecScore [[scA, scB, scC], [scB, scA, scD]] 60 (docIdOf scA) ≤
        rrfSpecScore [[scA, scB, scC], [scB, scA, scD]] 60 (docIdOf scB) ∧
      scD ∈ reciprocalRankFusion [[scA, scB, scC], [scB, scA, scD]] 60) := by
  refine ⟨?_, ?_, ?_, ?_⟩
  · intro rs k e he
    refine ⟨rrfFused_docIds rs k e he, ?_⟩
    rw [← rrfFused_score]
    exact (keyScoreSum_of_mem (rrfFused rs k) (rrfFused_nodup rs k) e he).symm
  · exact rrf_output_complete
  · intro rs k E S hk hm hlen hE hScount hne dE hdE dS hdS hidE hidS
    have hlow := rrfSpecScore_lower rs k (docIdOf E) hk hlen hE hm
    have hup := rrfSpecScore_upper rs k (docIdOf S) hk hScount
    have hgap : rrfSpecScore rs k (docIdOf S) < rrfSpecScore rs k (docIdOf E) := by
      have hmid : (1:ℚ) / (k + 1) < 2 * (1 / (2 * k + 1)) := by
        have h1 : (0:ℚ) < k + 1 := by positivity
        have h2 : (0:ℚ) < 2 * k + 1 := by positivity
        have he : 2 * (1 / (2 * k + 1)) = 2 / (2 * k + 1) := by ring
        rw [he, div_lt_div_iff₀ h1 h2]
        linarith
      linarith
    have hsorted : (rrfScored rs k).Pairwise (fun a b => b.2 ≤ a.2) :=
      List.sorted_insertionSort _ _
    have hsorted2 : (rrfScored rs k).Pairwise
        (fun p q => rrfSpecScore rs k (docIdOf q.1) ≤ rrfSpecScore rs k (docIdOf p.1)) := by
      refine List.Pairwise.imp_of_mem ?_ hsorted
      intro p q hp hq hle
      rw [← rrfScored_entry rs k p hp, ← rrfScored_entry rs k q hq]
      exact hle
    have houtPW : (reciprocalRankFusion rs k).Pairwise
        (fun d d' => rrfSpecScore rs k (docIdOf d') ≤ rrfSpecScore rs k (docIdOf d)) := by
      unfold reciprocalRankFusion
      exact (List.pairwise_map).mpr hsorted2
    have hab : dE ≠ dS := by
      intro h
      rw [h, hidS] at hidE
      exact hne hidE.symm
    refine pairwise_indexOf_lt houtPW hdE hdS hab ?_
    rw [hidE, hidS]
    exact not_le.mpr hgap
  · refine ⟨by with_unfolding_all decide, by with_unfolding_all decide,
      by with_unfolding_all decide⟩

/-- C2 (witness for the amended theorem): two short duplicate-free lists for
which the all-lists document `eDoc` ranks above the single-list document
`sDoc`. -/
theorem rrf_fusion_amended_witness :
    List.indexOf eDoc (reciprocalRankFusion [[sDoc, eDoc], [eDoc, fDoc 0]] 60) <
      List.indexOf sDoc (reciprocalRankFusion [[sDoc, eDoc], [eDoc, fDoc 0]] 60) := by
  refine rrf_fusion_amended.2.2.1 [[sDoc, eDoc], [eDoc, fDoc 0]] 60 eDoc sDoc
    (by norm_num) (by decide) ?_ (by decide) (by decide) (by decide)
    eDoc (by with_unfolding_all decide) sDoc (by with_unfolding_all decide)
    (by decide) (by decide)
  intro l hl
  simp only [List.mem_cons, List.mem_singleton] at hl
  rcases hl with rfl | rfl | h
  · norm_num
  · norm_num
  · cases h

theorem headD_reverse (l : Str) (d : Char) : l.reverse.headD d = l.getLastD d := by
  rw [List.headD_eq_head?, List.head?_reverse, List.getLastD_eq_getLast?]

theorem infix_dropWhile_of_head (p : Char → Bool) {q l : Str} (hne : q ≠ [])
    (hh : p (q.headD ' ') = false) (h : q <:+: l) : q <:+: l.dropWhile p := by
  obtain ⟨c, q', rfl⟩ : ∃ c q', q = c :: q' := by
    cases q with
    | nil => exact absurd rfl hne
    | cons c q' => exact ⟨c, q', rfl⟩
  have hc : p c = false := hh
  obtain ⟨s, t, hst⟩ := h
  subst hst
  rw [List.append_assoc, List.dropWhile_append]
  split_ifs with he
  · rw [List.cons_append, List.dropWhile_cons, if_neg (by rw [hc]; exact Bool.false_ne_true)]
    exact ⟨[], t, by simp⟩
  · exact ⟨s.dropWhile p, t, by rw [List.append_assoc]⟩

theorem infix_trim {q l : Str} (hne : q ≠ [])
    (hh : wsChar (q.headD ' ') = false) (hl : wsChar (q.getLastD ' ') = false)
    (h : q <:+: l) : q <:+: trimStr l := by
  have h1 : q <:+: l.dropWhile wsChar := infix_dropWhile_of_head wsChar hne hh h
  have h2 : q.reverse <:+: (l.dropWhile wsChar).reverse := List.reverse_infix.mpr h1
  have hne2 : q.reverse ≠ [] := by simpa using hne
  have hh2 : wsChar (q.reverse.headD ' ') = false := by rw [headD_reverse]; exact hl
  have h3 : q.reverse <:+: ((l.dropWhile wsChar).reverse).dropWhile wsChar :=
    infix_dropWhile_of_head wsChar hne2 hh2 h2
  have h4 := List.reverse_infix.mpr h3
  rw [List.reverse_reverse] at h4
  exact h4

theorem trim_props (l : Str) (h : trimStr l ≠ []) :
    wsChar ((trimStr l).headD ' ') = false ∧ wsChar ((trimStr l).getLastD ' ') = false := by
  have he : trimStr l = List.rdropWhile wsChar (l.dropWhile wsChar) := rfl
  constructor
  · obtain ⟨c, rest, hcr⟩ : ∃ c rest, trimStr l = c :: rest := by
      cases hq : trimStr l with
      | nil => exact absurd hq h
      | cons c rest => exact ⟨c, rest, rfl⟩
    rw [hcr]
    obtain ⟨t, ht⟩ := List.rdropWhile_prefix wsChar (l.dropWhile wsChar)
    rw [← he, hcr] at ht
    have hmne : l.dropWhile wsChar ≠ [] := by
      rw [← ht]
      simp
    have hns := List.head_dropWhile_not wsChar l hmne
    have hhead : (l.dropWhile wsChar).head hmne = c := by
      have : l.dropWhile wsChar = c :: (rest ++ t) := by
        rw [← ht, List.cons_append]
      simp only [this, List.head_cons]
    rw [hhead] at hns
    exact hns
  · have hne2 : List.rdropWhile wsChar (l.dropWhile wsChar) ≠ [] := by
      rw [← he]
      exact h
    have hns := List.rdropWhile_last_not wsChar (l.dropWhile wsChar) hne2
    rw [List.getLastD_eq_getLast?, he, List.getLast?_eq_getLast _ hne2]
    simp only [Option.getD_some]
    exact Bool.not_eq_true _ ▸ (by simpa using hns)

theorem infix_append_left {q a : Str} (b : Str) (h : q <:+: a) : q <:+: a ++ b := by
  obtain ⟨s, t, hst⟩ := h
  exact ⟨s, t ++ b, by rw [← hst]; simp [List.append_assoc]⟩

theorem infix_append_right {q b : Str} (a : Str) (h : q <:+: b) : q <:+: a ++ b := by
  obtain ⟨s, t, hst⟩ := h
  exact ⟨a ++ s, t, by rw [← hst]; simp [List.append_assoc]⟩

theorem chunkStep_extends (m mi ov : ℕ) (isTab : Str → Bool) (st : List Str × Str)
    (para : Str) : st.1 <+: (chunkStep m mi ov isTab st para).1 := by
  unfold chunkStep
  dsimp only
  split_ifs <;>
    first
      | exact List.prefix_rfl
      | exact List.prefix_append _ _
      | exact (List.prefix_append _ _).trans (List.prefix_append _ _)

theorem chunkFold_extends (m mi ov : ℕ) (isTab : Str → Bool) (paras : List Str) :
    ∀ st : List Str × Str, st.1 <+: (paras.foldl (chunkStep m mi ov isTab) st).1 := by
  induction paras with
  | nil => exact fun st => List.prefix_rfl
  | cons p paras ih =>
    intro st
    exact (chunkStep_extends m mi ov isTab st p).trans (ih (chunkStep m mi ov isTab st p))

theorem chunkStep_table_mem (m mi ov : ℕ) (isTab : Str → Bool) (st : List Str × Str)
    (p : Str) (ht : isTab (trimStr p) = true) :
    trimStr p ∈ (chunkStep m mi ov isTab st p).1 := by
  unfold chunkStep
  dsimp only
  rw [if_pos ht]
  exact List.mem_append_right _ (List.mem_singleton_self _)

theorem chunkStep_nontable (m mi ov : ℕ) (isTab : Str → Bool) (st : List Str × Str)
    (p : Str) (htab : isTab (trimStr p) = false)
    (hsize : (trimStr p).length + ov + 2 ≤ m) (hcur : st.2.length ≤ m) :
    (chunkStep m mi ov isTab st p).2.length ≤ m ∧
    trimStr p <:+ (chunkStep m mi ov isTab st p).2 ∧
    (∀ q : Str, q ≠ [] → wsChar (q.headD ' ') = false →
      wsChar (q.getLastD ' ') = false → q <:+: st.2 →
      (∃ c ∈ (chunkStep m mi ov isTab st p).1, q <:+: c) ∨
        q <:+: (chunkStep m mi ov isTab st p).2) := by
  unfold chunkStep
  dsimp only
  rw [if_neg (by rw [htab]; exact Bool.false_ne_true)]
  by_cases hA : 0 < st.2.length ∧ m < st.2.length + (trimStr p).length + 2
  · rw [if_pos hA]
    by_cases hov : 0 < ov ∧ ov < st.2.length
    · rw [if_pos hov]
      dsimp only
      have hlen1 : (takeLast ov st.2 ++ nl2 ++ trimStr p).length ≤ m := by
        simp only [List.length_append, takeLast, List.length_drop, nl2]
        have h1 : st.2.length - (st.2.length - ov) = ov := by omega
        rw [h1]
        simp only [List.length_cons, List.length_nil]
        omega
      rw [if_neg (by omega : ¬3 * m < 2 * (takeLast ov st.2 ++ nl2 ++ trimStr p).length)]
      refine ⟨hlen1, List.suffix_append _ _, ?_⟩
      intro q hq hqh hql hqi
      left
      exact ⟨trimStr st.2, List.mem_append_right _ (List.mem_singleton_self _),
        infix_trim hq hqh hql hqi⟩
    · rw [if_neg hov]
      dsimp only
      rw [if_neg (by omega : ¬3 * m < 2 * (trimStr p).length)]
      refine ⟨show (trimStr p).length ≤ m by omega, List.suffix_rfl, ?_⟩
      intro q hq hqh hql hqi
      left
      exact ⟨trimStr st.2, List.mem_append_right _ (List.mem_singleton_self _),
        infix_trim hq hqh hql hqi⟩
  · rw [if_neg hA]
    by_cases h0 : 0 < st.2.length
    · rw [if_pos h0]
      dsimp only
      have hle : st.2.length + (trimStr p).length + 2 ≤ m := by
        push_neg at hA
        exact hA h0
      have hlen1 : (st.2 ++ nl2 ++ trimStr p).length ≤ m := by
        simp only [List.length_append, nl2, List.length_cons, List.length_nil]
        omega
      rw [if_neg (by omega : ¬3 * m < 2 * (st.2 ++ nl2 ++ trimStr p).length)]
      refine ⟨hlen1, List.suffix_append _ _, ?_⟩
      intro q hq hqh hql hqi
      right
      exact infix_append_left _ (infix_append_left _ hqi)
    · rw [if_neg h0]
      dsimp only
      rw [if_neg (by omega : ¬3 * m < 2 * (trimStr p).length)]
      refine ⟨show (trimStr p).length ≤ m by omega, List.suffix_rfl, ?_⟩
      intro q hq hqh hql hqi
      have hnil : st.2 = [] := List.length_eq_zero.mp (by omega)
      rw [hnil] at hqi
      exact absurd (List.eq_nil_of_infix_nil hqi) hq

theorem chunkFold_cov (m mi ov : ℕ) (isTab : Str → Bool) :
    ∀ (paras : List Str) (st : List Str × Str),
      (∀ p ∈ paras, isTab (trimStr p) = false) →
      (∀ p ∈ paras, (trimStr p).length + ov + 2 ≤ m) →
      st.2.length ≤ m →
      (paras.foldl (chunkStep m mi ov isTab) st).2.length ≤ m ∧
      (∀ q : Str, q ≠ [] → wsChar (q.headD ' ') = false →
        wsChar (q.getLastD ' ') = false → q <:+: st.2 →
        (∃ c ∈ (paras.foldl (chunkStep m mi ov isTab) st).1, q <:+: c) ∨
          q <:+: (paras.foldl (chunkStep m mi ov isTab) st).2) ∧
      (∀ p ∈ paras,
        (∃ c ∈ (paras.foldl (chunkStep m mi ov isTab) st).1, trimStr p <:+: c) ∨
          trimStr p <:+: (paras.foldl (chunkStep m mi ov isTab) st).2) := by
  intro paras
  induction paras with
  | nil =>
    intro st htab hsize hcur
    refine ⟨hcur, ?_, ?_⟩
    · intro q hq hqh hql hqi
      right
      exact hqi
    · intro p hp
      exact absurd hp (List.not_mem_nil p)
  | cons p paras ih =>
    intro st htab hsize hcur
    obtain ⟨hlen1, hsuf, htrans⟩ :=
      chunkStep_nontable m mi ov isTab st p (htab p (List.mem_cons_self p paras))
        (hsize p (List.mem_cons_self p paras)) hcur
    have ih1 := ih (chunkStep m mi ov isTab st p)
      (fun p2 hp2 => htab p2 (List.mem_cons_of_mem p hp2))
      (fun p2 hp2 => hsize p2 (List.mem_cons_of_mem p hp2)) hlen1
    rw [List.foldl_cons]
    refine ⟨ih1.1, ?_, ?_⟩
    · intro q hq hqh hql hqi
      rcases htrans q hq hqh hql hqi with ⟨c, hc, hqc⟩ | hcur2
      · exact Or.inl ⟨c,
          (chunkFold_extends m mi ov isTab paras (chunkStep m mi ov isTab st p)).subset hc, hqc⟩
      · exact ih1.2.1 q hq hqh hql hcur2
    · intro p2 hp2
      rcases List.mem_cons.mp hp2 with he | hm
      · subst he
        by_cases hne : trimStr p2 = []
        · rw [hne]
          exact Or.inr List.nil_infix
        · exact ih1.2.1 (trimStr p2) hne (trim_props p2 hne).1 (trim_props p2 hne).2
            hsuf.isInfix
      · exact ih1.2.2 p2 hm

theorem chunkFinish_cov (mi : ℕ) (st : List Str × Str) (q : Str)
    (hq : q ≠ []) (hqh : wsChar (q.headD ' ') = false)
    (hql : wsChar (q.getLastD ' ') = false)
    (h : (∃ c ∈ st.1, q <:+: c) ∨ q <:+: st.2) :
    ∃ c ∈ chunkFinish mi st, q <:+: c := by
  unfold chunkFinish
  dsimp only
  by_cases h1 : mi ≤ (trimStr st.2).length
  · rw [if_pos h1]
    rcases h with ⟨c, hc, hqc⟩ | h2
    · exact ⟨c, List.mem_append_left _ hc, hqc⟩
    · exact ⟨trimStr st.2, List.mem_append_right _ (List.mem_singleton_self _),
        infix_trim hq hqh hql h2⟩
  · rw [if_neg h1]
    by_cases h2 : 0 < (trimStr st.2).length ∧ st.1 ≠ []
    · rw [if_pos h2]
      have hgl : st.1.getLastD [] = st.1.getLast h2.2 := by
        rw [List.getLastD_eq_getLast?, List.getLast?_eq_getLast st.1 h2.2]
        rfl
      rcases h with ⟨c, hc, hqc⟩ | h3
      · rw [← List.dropLast_append_getLast h2.2] at hc
        rcases List.mem_append.mp hc with hd | hl
        · exact ⟨c, List.mem_append_left _ hd, hqc⟩
        · have hce : c = st.1.getLast h2.2 := List.mem_singleton.mp hl
          refine ⟨st.1.getLastD [] ++ nl2 ++ trimStr st.2,
            List.mem_append_right _ (List.mem_singleton_self _), ?_⟩
          rw [hgl]
          exact infix_append_left _ (infix_append_left _ (hce ▸ hqc))
      · exact ⟨st.1.getLastD [] ++ nl2 ++ trimStr st.2,
          List.mem_append_right _ (List.mem_singleton_self _),
          infix_append_right _ (infix_trim hq hqh hql h3)⟩
    · rw [if_neg h2]
      by_cases h3 : 0 < (trimStr st.2).length
      · rw [if_pos h3]
        rcases h with ⟨c, hc, hqc⟩ | h4
        · exact ⟨c, List.mem_append_left _ hc, hqc⟩
        · exact ⟨trimStr st.2, List.mem_append_right _ (List.mem_singleton_self _),
            infix_trim hq hqh hql h4⟩
      · rw [if_neg h3]
        rcases h with ⟨c, hc, hqc⟩ | h4
        · exact ⟨c, hc, hqc⟩
        · have ht : trimStr st.2 = [] := List.length_eq_zero.mp (by omega)
          have h5 := infix_trim hq hqh hql h4
          rw [ht] at h5
          exact absurd (List.eq_nil_of_infix_nil h5) hq

theorem chunkFold_table_mem (m mi ov : ℕ) (isTab : Str → Bool) (paras : List Str) :
    ∀ st : List Str × Str, ∀ p ∈ paras, isTab (trimStr p) = true →
      trimStr p ∈ (paras.foldl (chunkStep m mi ov isTab) st).1 := by
  induction paras with
  | nil =>
    intro st p hp
    exact absurd hp (List.not_mem_nil p)
  | cons q paras ih =>
    intro st p hp ht
    rw [List.foldl_cons]
    rcases List.mem_cons.mp hp with he | hm
    · subst he
      exact (chunkFold_extends m mi ov isTab paras _).subset
        (chunkStep_table_mem m mi ov isTab st p ht)
    · exact ih _ p hm ht

theorem chunkFinish_mem (mi : ℕ) (st : List Str × Str) (c : Str) (hc : c ∈ st.1) :
    ∃ d ∈ chunkFinish mi st, c <:+: d := by
  unfold chunkFinish
  dsimp only
  split_ifs with h1 h2 h3
  · exact ⟨c, List.mem_append_left _ hc, List.infix_rfl⟩
  · have hgl : st.1.getLastD [] = st.1.getLast h2.2 := by
      rw [List.getLastD_eq_getLast?, List.getLast?_eq_getLast st.1 h2.2]
      rfl
    rw [← List.dropLast_append_getLast h2.2] at hc
    rcases List.mem_append.mp hc with hd | hl
    · exact ⟨c, List.mem_append_left _ hd, List.infix_rfl⟩
    · have hce : c = st.1.getLast h2.2 := List.mem_singleton.mp hl
      refine ⟨st.1.getLastD [] ++ nl2 ++ trimStr st.2,
        List.mem_append_right _ (List.mem_singleton_self _), ?_⟩
      rw [hgl]
      have hcg : c <:+: st.1.getLast h2.2 := by
        rw [hce]
      exact infix_append_left _ (infix_append_left _ hcg)
  · exact ⟨c, List.mem_append_left _ hc, List.infix_rfl⟩
  · exact ⟨c, hc, List.infix_rfl⟩

/-- C3 (counterexample): the spec says no paragraph of a region is ever
lost, and in particular that a pending paragraph buffer is flushed when a
table chunk is reached.  False: `chunkRegion` flushes the buffer before a
table chunk only when it has reached `minSize`.  For `covCexText` the
paragraph `tiny para` (9 characters, below `minSize = 100`) is buffered,
the table paragraph arrives, the buffer is silently discarded, and the
output consists of the table chunk alone — no output chunk contains
`tiny para`. -/
theorem chunk_coverage_cex :
    chunkRegion covCexText 1500 100 200 (detectTables covCexText 3) =
      ["| a | 1 |\n| b | 2 |\n| c | 3 |".data] ∧
    "tiny para".data ∈ splitParasOn covCexText ∧
    (∀ c ∈ chunkRegion covCexText 1500 100 200 (detectTables covCexText 3),
      hasInfix c ("tiny para".data) = false) ∧
    ("tiny para".data).length < 100 := by
  decide

/-- C3 (amended): paragraph coverage does hold on table-free input.  If no
(nonempty-after-trim) paragraph of the text is flagged as a table paragraph
and every trimmed paragraph fits in `maxSize` with room for the overlap
glue, then the trimmed text of every such paragraph occurs verbatim inside
some chunk emitted by `chunkRegion` — nothing is lost to the `maxSize`
flush, the overlap carry, or the final flush. -/
theorem chunk_coverage_amended (text : Str) (m mi ov : ℕ) (tables : List TRegion)
    (htab : ∀ p ∈ (splitParasOn text).filter (fun p => decide (0 < (trimStr p).length)),
      isWithinTable (trimStr p) tables = false)
    (hsize : ∀ p ∈ (splitParasOn text).filter (fun p => decide (0 < (trimStr p).length)),
      (trimStr p).length + ov + 2 ≤ m) :
    ∀ p ∈ (splitParasOn text).filter (fun p => decide (0 < (trimStr p).length)),
      ∃ c ∈ chunkRegion text m mi ov tables, trimStr p <:+: c := by
  intro p hp
  have hpne : trimStr p ≠ [] := by
    have hlen := (List.mem_filter.mp hp).2
    intro hnil
    rw [hnil] at hlen
    simp at hlen
  have hgood := trim_props p hpne
  have hmain := chunkFold_cov m mi ov (fun p2 => isWithinTable p2 tables)
    ((splitParasOn text).filter (fun p2 => decide (0 < (trimStr p2).length)))
    ([], []) htab hsize (by simp)
  exact chunkFinish_cov mi _ (trimStr p) hpne hgood.1 hgood.2 (hmain.2.2 p hp)

/-- C3 (witness): the amended coverage theorem applied to a concrete
two-paragraph table-free document. -/
theorem chunk_coverage_amended_witness :
    ∃ c ∈ chunkRegion ("hello world\n\nsecond para").data 1500 100 200 [],
      trimStr ("hello world").data <:+: c :=
  chunk_coverage_amended ("hello world\n\nsecond para").data 1500 100 200 []
    (by decide) (by decide) ("hello world").data (by decide)

/-- C4 (counterexample): the spec says no chunk boundary falls strictly
inside a detected table region of at least 3 rows.  False when the region
spans a paragraph break: `detectTables` absorbs the single blank line of
`atomCexText` into one 7-line region, but `chunkRegion` splits paragraphs
at blank lines first, so the region is emitted as two separate table
chunks and neither output chunk contains the whole region text. -/
theorem table_atomicity_cex :
    ((detectTables atomCexText 3).map (fun t => (t.lineStart, t.lineEnd))) = [(0, 6)] ∧
    (∀ t ∈ detectTables atomCexText 3, 3 ≤ t.lineEnd + 1 - t.lineStart) ∧
    (chunkRegion atomCexText 1500 100 200 (detectTables atomCexText 3)).length = 2 ∧
    (∀ c ∈ chunkRegion atomCexText 1500 100 200 (detectTables atomCexText 3),
      ∀ t ∈ detectTables atomCexText 3, hasInfix c t.text = false) := by
  decide

set_option maxRecDepth 400000 in
/-- C4 (amended): what does hold.  First, paragraph-level table atomicity:
any nonempty paragraph flagged by `isWithinTable` is emitted atomically —
its trimmed text occurs verbatim inside a single output chunk, whatever
`maxSize` is.  Second, the spec scenario restricted to a table that is one
paragraph: `scenText` has 50 lines with a 5-line pipe table at lines
20-24, `detectTables` finds exactly that region, the table is larger than
the configured `maxSize = 40`, and exactly one chunk of the semantic
chunker output contains all 5 table lines contiguously. -/
theorem table_atomicity_amended :
    (∀ (text : Str) (m mi ov : ℕ) (tables : List TRegion),
      ∀ p ∈ (splitParasOn text).filter (fun p => decide (0 < (trimStr p).length)),
        isWithinTable (trimStr p) tables = true →
        ∃ c ∈ chunkRegion text m mi ov tables, trimStr p <:+: c) ∧
    (splitChar '\n' scenText).length = 50 ∧
    ((detectTables scenText 3).map (fun t => (t.lineStart, t.lineEnd))) = [(20, 24)] ∧
    (∀ t ∈ detectTables scenText 3, t.text = scenTable) ∧
    40 < scenTable.length ∧
    ((semanticChunksNoSections scenText 40 5 10).filter
      (fun c => hasInfix c scenTable)).length = 1 := by
  constructor
  · intro text m mi ov tables p hp htab
    have hmem := chunkFold_table_mem m mi ov (fun p2 => isWithinTable p2 tables)
      ((splitParasOn text).filter (fun p2 => decide (0 < (trimStr p2).length)))
      ([], []) p hp htab
    exact chunkFinish_mem mi _ (trimStr p) hmem
  · decide

/-- C4 (witness): the atomicity part of the amended theorem applied to the
first table paragraph of `atomCexText`. -/
theorem table_atomicity_amended_witness :
    ∃ c ∈ chunkRegion atomCexText 1500 100 200 (detectTables atomCexText 3),
      trimStr ("| a | 1 |\n| b | 2 |\n| c | 3 |").data <:+: c :=
  table_atomicity_amended.1 atomCexText 1500 100 200 (detectTables atomCexText 3)
    ("| a | 1 |\n| b | 2 |\n| c | 3 |").data (by decide) (by decide)
